import Mathlib

/-!
Tesla Plant: connected components touched by an inspection list.

A shallow embedding of `submissions/accepted/solution.cpp`.

The program builds an undirected graph over the building IDs `0 .. MAX_ID`
(`vector<vector<int>> adj(MAX_ID + 1)`), then walks the inspection list and
starts a breadth-first traversal from every entry that is in range and not
yet visited, counting one sector per traversal.  It prints
`sectors > 0 ? sectors - 1 : 0`.

Conventions of the embedding:

* `int` values are `Int`; no arithmetic is performed on IDs, and the sector
  counter never exceeds `MAX_ID + 1` (`countSectors_le`), so machine overflow
  plays no role.
* `vector<T>` is `List T`.  Every subscript `xs[i]` is a *checked* access:
  an index outside the vector is undefined behaviour in C++ and is the
  fault `Fault.outOfBounds` here.
* the `while (!dq.empty())` loop is unrolled with a fuel counter; running
  out of fuel is the fault `Fault.outOfFuel`.  The record loop, whose counter
  is put back on an empty line, carries a fuel counter as well.
* the input after the header and the inspection list is a list of lines;
  `std::stringstream` is not part of the program and enters as a parameter
  (`StreamOps`).  An extraction may leave its variable unwritten; reading an
  `int` that was never written is undefined behaviour in C++ and is the fault
  `Fault.indeterminate` here.
-/

namespace TeslaPlant

/-! ## Data model -/

/-- The ways in which the checked semantics can fail. -/
inductive Fault where
  | outOfBounds
  | outOfFuel
  | indeterminate
  deriving DecidableEq, Repr

/-- Adjacency map, `vector<vector<int>> adj`. -/
abbrev Adj := List (List Int)

/-- Visited marks, `vector<bool> visited`. -/
abbrev Visited := List Bool

/-- The constant `const int MAX_ID = 1000`. -/
def MAX_ID : Nat := 1000

/-- Checked subscript read `xs[i]` with an `int` index. -/
def readAt {α : Type} (xs : List α) (i : Int) : Except Fault α :=
  if i < 0 then .error .outOfBounds
  else
    match xs[i.toNat]? with
    | some x => .ok x
    | none => .error .outOfBounds

/-- Checked subscript write `xs[i] = x` with an `int` index. -/
def writeAt {α : Type} (xs : List α) (i : Int) (x : α) : Except Fault (List α) :=
  if i < 0 then .error .outOfBounds
  else if i.toNat < xs.length then .ok (xs.set i.toNat x)
  else .error .outOfBounds

/-! ## Graph builder -/

/-- The adjacency map right after `vector<vector<int>> adj(MAX_ID + 1)`. -/
def emptyAdj : Adj := List.replicate (MAX_ID + 1) []

/-- The statement `adj[i].push_back(x)`. -/
def pushAt (adj : Adj) (i x : Int) : Except Fault Adj :=
  match readAt adj i with
  | .error e => .error e
  | .ok row => writeAt adj i (row ++ [x])

/-- Body of the neighbour loop (lines 53-56): the guarded, symmetric insertion
of the edge `id - nb`. -/
def addEdge (adj : Adj) (id nb : Int) : Except Fault Adj :=
  if id ≥ 0 ∧ id ≤ (MAX_ID : Int) ∧ nb ≥ 0 ∧ nb ≤ (MAX_ID : Int) then
    match pushAt adj id nb with
    | .error e => .error e
    | .ok adj1 => pushAt adj1 nb id
  else .ok adj

/-- A finite sequence of `addEdge` calls, in order. -/
def addEdges : Adj → List (Int × Int) → Except Fault Adj
  | adj, [] => .ok adj
  | adj, e :: es =>
    match addEdge adj e.1 e.2 with
    | .error err => .error err
    | .ok adj1 => addEdges adj1 es

/-- The adjacency maps the graph builder can produce: the results of finite
sequences of `addEdge` calls starting from the empty map. -/
def Built (adj : Adj) : Prop := ∃ es : List (Int × Int), addEdges emptyAdj es = .ok adj

/-! ## Sector counter -/

/-- The loop `for (int v : adj[u])` (lines 78-83) over the row `adj[u]`. -/
def scanRow : Visited → List Int → List Int → Except Fault (Visited × List Int)
  | visited, dq, [] => .ok (visited, dq)
  | visited, dq, v :: vs =>
    match readAt visited v with
    | .error e => .error e
    | .ok seen =>
      if !seen then
        match writeAt visited v true with
        | .error e => .error e
        | .ok visited1 => scanRow visited1 (dq ++ [v]) vs
      else scanRow visited dq vs

/-- The loop `while (!dq.empty())` (lines 74-84); `dq.front()` is the head of
the list and `push_back` appends at the end. -/
def bfsLoop (adj : Adj) : Nat → Visited → List Int → Except Fault Visited
  | _, visited, [] => .ok visited
  | 0, _, _ :: _ => .error .outOfFuel
  | fuel + 1, visited, u :: dq =>
    match readAt adj u with
    | .error e => .error e
    | .ok row =>
      match scanRow visited dq row with
      | .error e => .error e
      | .ok (visited1, dq1) => bfsLoop adj fuel visited1 dq1

/-- The loop `for (int start : toInspect)` (lines 65-85), threading the
visited marks and the sector counter. -/
def sectorLoop (fuel : Nat) (adj : Adj) : Visited → Int → List Int → Except Fault (Visited × Int)
  | visited, sectors, [] => .ok (visited, sectors)
  | visited, sectors, start :: rest =>
    if start < 0 ∨ start > (MAX_ID : Int) then sectorLoop fuel adj visited sectors rest
    else
      match readAt visited start with
      | .error e => .error e
      | .ok seen =>
        if seen then sectorLoop fuel adj visited sectors rest
        else
          match writeAt visited start true with
          | .error e => .error e
          | .ok visited1 =>
            match bfsLoop adj fuel visited1 [start] with
            | .error e => .error e
            | .ok visited2 => sectorLoop fuel adj visited2 (sectors + 1) rest

/-- The visited marks right after `vector<bool> visited(MAX_ID + 1, false)`. -/
def initVisited : Visited := List.replicate (MAX_ID + 1) false

/-- Lines 60-85: the value of `sectors` after the counting pass. -/
def countSectors (fuel : Nat) (adj : Adj) (toInspect : List Int) : Except Fault Int :=
  match sectorLoop fuel adj initVisited 0 toInspect with
  | .error e => .error e
  | .ok (_, sectors) => .ok sectors

/-- Line 87: `int drives = (sectors > 0 ? sectors - 1 : 0)`. -/
def drivesOf (sectors : Int) : Int :=
  if sectors > 0 then sectors - 1 else 0

/-- Lines 60-88: the number the program prints. -/
def drives (fuel : Nat) (adj : Adj) (toInspect : List Int) : Except Fault Int :=
  match countSectors fuel adj toInspect with
  | .error e => .error e
  | .ok sectors => .ok (drivesOf sectors)

/-! ## Specification vocabulary -/

/-- The ID lies in the vertex domain `[0, MAX_ID]`. -/
def InRange (v : Int) : Prop := 0 ≤ v ∧ v ≤ (MAX_ID : Int)

instance (v : Int) : Decidable (InRange v) := by
  unfold InRange
  infer_instance

/-- The mark `visited[v]` is readable and set. -/
def Marked (visited : Visited) (v : Int) : Prop := readAt visited v = .ok true

/-- The ID `v` is stored in the row `adj[u]`. -/
def Edge (adj : Adj) (u v : Int) : Prop := ∃ row, readAt adj u = .ok row ∧ v ∈ row

/-- Reachability along stored neighbour entries. -/
def Reach (adj : Adj) : Int → Int → Prop := Relation.ReflTransGen (Edge adj)

/-- The set of vertices reachable from `v`; for an undirected graph this is
the connected component of `v`. -/
def component (adj : Adj) (v : Int) : Set Int := {w | Reach adj v w}

/-- The connected components of the graph over the vertex domain. -/
def IsComponent (adj : Adj) (c : Set Int) : Prop := ∃ w, InRange w ∧ c = component adj w

/-- The connected components that contain at least one in-range ID of the
inspection list. -/
def touched (adj : Adj) (toInspect : List Int) : Set (Set Int) :=
  {c | IsComponent adj c ∧ ∃ v ∈ toInspect, InRange v ∧ v ∈ c}

/-- Well-formed adjacency maps: one row per vertex of the domain, every stored
ID in the domain, and every stored entry mirrored in the other row. -/
structure WF (adj : Adj) : Prop where
  size : adj.length = MAX_ID + 1
  inRange : ∀ u v, Edge adj u v → InRange v
  symm : ∀ u v, Edge adj u v → Edge adj v u

/-- The visited marks are closed under stored neighbour entries. -/
def Closed (adj : Adj) (visited : Visited) : Prop :=
  ∀ u v, Marked visited u → Edge adj u v → Marked visited v

/-- Number of vertices not yet marked. -/
def unvisited (visited : Visited) : Nat := visited.count false

deriving instance DecidableEq for Except

/-- The adjacency map of the scenario with the edges 1-2, 2-1 and 3-4. -/
def scenarioAdj : Adj :=
  (((emptyAdj.set 1 [2, 2]).set 2 [1, 1]).set 3 [4]).set 4 [3]

/-! ## Record reading -/

/-- The operations of `std::stringstream` used by the record loop.  The standard
library is not part of the program, so its behaviour is a parameter: `σ` is the
state of a stream. -/
structure StreamOps (σ : Type) where
  /-- The declaration `stringstream ss(line)`. -/
  init : String → σ
  /-- The extraction `ss >> x` into an `int x`: the stream afterwards, and the
  value written to `x`, or `none` when the extraction leaves `x` unwritten. -/
  extract : σ → σ × Option Int

/-- The call `getline(cin, line)` on the lines `cin` still holds, with `line`
freshly declared: the line read and the input left.  At the end of the input,
and likewise on a `cin` that an earlier read has put into the failed state,
nothing is read and the line stays empty. -/
def getline : List String → String × List String
  | [] => ("", [])
  | l :: ls => (l, ls)

/-- Lines 53-56 on the variables `id` and `nb` as the extractions left them.
The `&&` chain reads `id` first and reads `nb` only when `id` is in range;
reading an `int` that was declared without a value and never written is
undefined behaviour and is the fault `Fault.indeterminate`. -/
def insertRead (adj : Adj) (id nb : Option Int) : Except Fault Adj :=
  match id with
  | none => .error .indeterminate
  | some i =>
    if i ≥ 0 ∧ i ≤ (MAX_ID : Int) then
      match nb with
      | none => .error .indeterminate
      | some n => addEdge adj i n
    else .ok adj

/-- The loop `for (int j = 0; j < deg; ++j)` (lines 50-57) with `n` iterations
to go; started with `n = deg.toNat`, the number of `j` with `0 ≤ j < deg`.
Each iteration declares a fresh `int nb` and extracts into it. -/
def neighbourLoop {σ : Type} (ops : StreamOps σ) (id : Option Int) :
    Nat → σ → Adj → Except Fault Adj
  | 0, _, adj => .ok adj
  | n + 1, ss, adj =>
    match insertRead adj id (ops.extract ss).2 with
    | .error e => .error e
    | .ok adj1 => neighbourLoop ops id n (ops.extract ss).1 adj1

/-- Lines 46-57: one non-empty record line `id deg nb_1 ... nb_deg`.  The
variables `id` and `deg` are declared without a value; the loop condition
`j < deg` reads `deg`. -/
def readRecord {σ : Type} (ops : StreamOps σ) (line : String) (adj : Adj) : Except Fault Adj :=
  let ss1 := ops.extract (ops.init line)
  let ss2 := ops.extract ss1.1
  match ss2.2 with
  | none => .error .indeterminate
  | some deg => neighbourLoop ops ss1.2 deg.toNat ss2.1 adj

/-- The loop `for (int i = 0; i < B; ++i)` (lines 38-58) from the counter value
`i` on, with a fuel counter for the iterations; an empty line runs `--i` and
`continue`, after which the loop header runs `++i`. -/
def recordLoop {σ : Type} (ops : StreamOps σ) (B : Int) :
    Nat → Int → List String → Adj → Except Fault Adj
  | 0, i, _, adj => if i < B then .error .outOfFuel else .ok adj
  | fuel + 1, i, input, adj =>
    if i < B then
      if (getline input).1.isEmpty then recordLoop ops B fuel (i - 1 + 1) (getline input).2 adj
      else
        match readRecord ops (getline input).1 adj with
        | .error e => .error e
        | .ok adj1 => recordLoop ops B fuel (i + 1) (getline input).2 adj1
    else .ok adj

/-- The records of a list of lines read one after the other. -/
def readRecords {σ : Type} (ops : StreamOps σ) : List String → Adj → Except Fault Adj
  | [], adj => .ok adj
  | l :: ls, adj =>
    match readRecord ops l adj with
    | .error e => .error e
    | .ok adj1 => readRecords ops ls adj1

/-- The input lines that are not empty, that is, for which `line.empty()` is
false. -/
def meaningful (input : List String) : List String :=
  input.filter (fun l => !l.isEmpty)

/-- White space of the "C" locale: the blank and the characters 9 to 13. -/
def isSpaceC (c : Char) : Bool :=
  c.toNat == 32 || (9 ≤ c.toNat && c.toNat ≤ 13)

/-- A blank line: a line without any character other than white space. -/
def isBlank (l : String) : Bool :=
  l.data.all isSpaceC

/-- The input lines that are not blank. -/
def nonBlank (input : List String) : List String :=
  input.filter (fun l => !isBlank l)

/-- State of the sample string stream: the characters not yet read, and whether
the stream is good (no state flag set). -/
structure SampleStream where
  /-- The characters not yet read. -/
  chars : List Char
  /-- No state flag is set. -/
  good : Bool

/-- Value of a string of decimal digits. -/
def digitsValue (ds : List Char) : Nat :=
  ds.foldl (fun n c => 10 * n + (c.toNat - 48)) 0

/-- The value stored for a parsed number: out-of-range values become the nearest
bound of a 32-bit `int`. -/
def clampInt (v : Int) : Int :=
  if v > 2147483647 then 2147483647
  else if v < -2147483648 then -2147483648
  else v

/-- Sample behaviour of `ss >> x` for an `int x`, after the rules of C++11.  A
stream that is not good fails and leaves `x` unwritten.  Otherwise leading
white space is skipped; at the end of the characters the stream fails and `x`
stays unwritten.  Otherwise an optional sign and the decimal digits after it
are read: without a digit the extraction fails and stores `0`; with digits it
stores the value (the nearest bound, with failure, when out of range), and the
stream stays good only if characters are left. -/
def sampleExtract (ss : SampleStream) : SampleStream × Option Int :=
  if !ss.good then (ss, none)
  else
    match ss.chars.dropWhile isSpaceC with
    | [] => ({ chars := [], good := false }, none)
    | c :: cs =>
      let body := if c = '-' ∨ c = '+' then cs else c :: cs
      let ds := body.takeWhile Char.isDigit
      let rest := body.dropWhile Char.isDigit
      if ds.isEmpty then ({ chars := rest, good := false }, some 0)
      else
        let v : Int := if c = '-' then -(digitsValue ds : Int) else (digitsValue ds : Int)
        ({ chars := rest, good := !rest.isEmpty && clampInt v == v }, some (clampInt v))

/-- A sample stream for the examples. -/
def tokenOps : StreamOps SampleStream where
  init := fun line => { chars := line.data, good := true }
  extract := sampleExtract

/-- The input lines of the scenario, after the header and the inspection list:
the rest of the inspection line, and the three records. -/
def scenarioInput : List String := ["", "1 1 2", "2 1 1", "", "3 1 4"]

/-- Symmetry of the stored entries, with multiplicity: for distinct `u` and `v`
the row of `u` holds `v` as often as the row of `v` holds `u`. -/
def SymmCount (adj : Adj) : Prop :=
  ∀ (u v : Int) (rowU rowV : List Int), u ≠ v →
    readAt adj u = .ok rowU → readAt adj v = .ok rowV → rowU.count v = rowV.count u

/-! ## The counting pass with a log of the queue pushes -/

/-- The neighbour scan `scanRow` with a ghost log: every `dq.push_back(v)` also
appends `v` to the log. -/
def scanRowLog : Visited → List Int → List Int → List Int →
    Except Fault (Visited × List Int × List Int)
  | visited, dq, log, [] => .ok (visited, dq, log)
  | visited, dq, log, v :: vs =>
    match readAt visited v with
    | .error e => .error e
    | .ok seen =>
      if !seen then
        match writeAt visited v true with
        | .error e => .error e
        | .ok visited1 => scanRowLog visited1 (dq ++ [v]) (log ++ [v]) vs
      else scanRowLog visited dq log vs

/-- The traversal `bfsLoop` with the ghost log of pushes. -/
def bfsLoopLog (adj : Adj) : Nat → Visited → List Int → List Int →
    Except Fault (Visited × List Int)
  | _, visited, [], log => .ok (visited, log)
  | 0, _, _ :: _, _ => .error .outOfFuel
  | fuel + 1, visited, u :: dq, log =>
    match readAt adj u with
    | .error e => .error e
    | .ok row =>
      match scanRowLog visited dq log row with
      | .error e => .error e
      | .ok (visited1, dq1, log1) => bfsLoopLog adj fuel visited1 dq1 log1

/-- The inspection loop `sectorLoop` with two ghost logs: the pushes onto the
queue and the vertices that started a sector. -/
def sectorLoopLog (fuel : Nat) (adj : Adj) : Visited → Int → List Int → List Int → List Int →
    Except Fault (Visited × Int × List Int × List Int)
  | visited, sectors, log, starts, [] => .ok (visited, sectors, log, starts)
  | visited, sectors, log, starts, start :: rest =>
    if start < 0 ∨ start > (MAX_ID : Int) then
      sectorLoopLog fuel adj visited sectors log starts rest
    else
      match readAt visited start with
      | .error e => .error e
      | .ok seen =>
        if seen then sectorLoopLog fuel adj visited sectors log starts rest
        else
          match writeAt visited start true with
          | .error e => .error e
          | .ok visited1 =>
            match bfsLoopLog adj fuel visited1 [start] (log ++ [start]) with
            | .error e => .error e
            | .ok (visited2, log2) =>
              sectorLoopLog fuel adj visited2 (sectors + 1) log2 (starts ++ [start]) rest

/-- A map that no edge sequence builds: a self-loop and a doubled entry in row
1, and the directed cycle 1, 2, 3. -/
def cyclicAdj : Adj :=
  ((emptyAdj.set 1 [1, 2, 2]).set 2 [3]).set 3 [1]

/-! ## The depth-first variant -/

/-- The traversal of `bfsLoop` with the deque used as a stack: the vertex is
taken with `dq.back()` and `dq.pop_back()` in place of `dq.front()` and
`dq.pop_front()`; pushes still go to the back. -/
def lifoLoop (adj : Adj) : Nat → Visited → List Int → Except Fault Visited
  | fuel, visited, dq =>
    match dq.getLast?, fuel with
    | none, _ => .ok visited
    | some _, 0 => .error .outOfFuel
    | some u, fuel + 1 =>
      match readAt adj u with
      | .error e => .error e
      | .ok row =>
        match scanRow visited dq.dropLast row with
        | .error e => .error e
        | .ok (visited1, dq1) => lifoLoop adj fuel visited1 dq1

/-- The inspection loop of `sectorLoop` with the depth-first traversal. -/
def sectorLoopLifo (fuel : Nat) (adj : Adj) :
    Visited → Int → List Int → Except Fault (Visited × Int)
  | visited, sectors, [] => .ok (visited, sectors)
  | visited, sectors, start :: rest =>
    if start < 0 ∨ start > (MAX_ID : Int) then sectorLoopLifo fuel adj visited sectors rest
    else
      match readAt visited start with
      | .error e => .error e
      | .ok seen =>
        if seen then sectorLoopLifo fuel adj visited sectors rest
        else
          match writeAt visited start true with
          | .error e => .error e
          | .ok visited1 =>
            match lifoLoop adj fuel visited1 [start] with
            | .error e => .error e
            | .ok visited2 => sectorLoopLifo fuel adj visited2 (sectors + 1) rest

/-- The sector count of `countSectors` with the depth-first traversal. -/
def countSectorsLifo (fuel : Nat) (adj : Adj) (toInspect : List Int) : Except Fault Int :=
  match sectorLoopLifo fuel adj initVisited 0 toInspect with
  | .error e => .error e
  | .ok (_, sectors) => .ok sectors

/-! ## Checked subscripts -/

theorem readAt_ok_iff {α : Type} (xs : List α) (i : Int) (x : α) :
    readAt xs i = .ok x ↔ 0 ≤ i ∧ xs[i.toNat]? = some x := by
  unfold readAt
  by_cases h : i < 0
  · simp [h]
  · simp only [h, if_false]
    have h0 : 0 ≤ i := by omega
    cases hx : xs[i.toNat]? <;> simp [h0]

theorem readAt_ok_lt {α : Type} {xs : List α} {i : Int} {x : α}
    (h : readAt xs i = .ok x) : 0 ≤ i ∧ i.toNat < xs.length := by
  obtain ⟨h0, h1⟩ := (readAt_ok_iff xs i x).1 h
  obtain ⟨h2, -⟩ := List.getElem?_eq_some.1 h1
  exact ⟨h0, h2⟩

theorem readAt_of_lt {α : Type} (xs : List α) {i : Int}
    (h0 : 0 ≤ i) (h1 : i.toNat < xs.length) : ∃ x, readAt xs i = .ok x := by
  refine ⟨xs[i.toNat], (readAt_ok_iff xs i _).2 ⟨h0, ?_⟩⟩
  exact List.getElem?_eq_getElem h1

theorem writeAt_ok_iff {α : Type} (xs ys : List α) (i : Int) (x : α) :
    writeAt xs i x = .ok ys ↔ 0 ≤ i ∧ i.toNat < xs.length ∧ ys = xs.set i.toNat x := by
  unfold writeAt
  by_cases h : i < 0
  · simp [h]
  · simp only [h, if_false]
    have h0 : 0 ≤ i := by omega
    by_cases h1 : i.toNat < xs.length
    · simp [h1, h0, eq_comm]
    · simp [h1]

theorem writeAt_of_lt {α : Type} {xs : List α} {i : Int} (x : α)
    (h0 : 0 ≤ i) (h1 : i.toNat < xs.length) : writeAt xs i x = .ok (xs.set i.toNat x) :=
  (writeAt_ok_iff xs _ i x).2 ⟨h0, h1, rfl⟩

theorem writeAt_length {α : Type} {xs ys : List α} {i : Int} {x : α}
    (h : writeAt xs i x = .ok ys) : ys.length = xs.length := by
  obtain ⟨-, -, rfl⟩ := (writeAt_ok_iff xs ys i x).1 h
  simp

theorem readAt_writeAt_self {α : Type} {xs ys : List α} {i : Int} {x : α}
    (h : writeAt xs i x = .ok ys) : readAt ys i = .ok x := by
  obtain ⟨h0, h1, rfl⟩ := (writeAt_ok_iff xs ys i x).1 h
  rw [readAt_ok_iff]
  exact ⟨h0, by simp [List.getElem?_set, h1]⟩

theorem readAt_writeAt_ne {α : Type} {xs ys : List α} {i j : Int} {x : α}
    (h : writeAt xs i x = .ok ys) (hij : j ≠ i) : readAt ys j = readAt xs j := by
  obtain ⟨h0, h1, rfl⟩ := (writeAt_ok_iff xs ys i x).1 h
  unfold readAt
  by_cases hj : j < 0
  · simp [hj]
  · have hne : i.toNat ≠ j.toNat := by omega
    simp [hj, List.getElem?_set, hne]

/-! ## Visited marks -/

theorem marked_iff (vis : Visited) (v : Int) :
    Marked vis v ↔ 0 ≤ v ∧ vis[v.toNat]? = some true :=
  readAt_ok_iff vis v true

theorem marked_writeAt {vis vis1 : Visited} {v : Int} (h : writeAt vis v true = .ok vis1)
    (x : Int) : Marked vis1 x ↔ Marked vis x ∨ x = v := by
  unfold Marked
  by_cases hx : x = v
  · subst hx
    simp [readAt_writeAt_self h]
  · simp [readAt_writeAt_ne h hx, hx]

theorem unvisited_writeAt {vis vis1 : Visited} {v : Int} (hr : readAt vis v = .ok false)
    (h : writeAt vis v true = .ok vis1) : unvisited vis1 + 1 = unvisited vis := by
  obtain ⟨h0, h1, rfl⟩ := (writeAt_ok_iff vis vis1 v true).1 h
  obtain ⟨-, h2⟩ := (readAt_ok_iff vis v false).1 hr
  obtain ⟨h3, h4⟩ := List.getElem?_eq_some.1 h2
  unfold unvisited
  rw [List.count_set _ _ _ _ h1]
  have hpos : 0 < List.count false vis := by
    rw [List.count_pos_iff]
    rw [← h4]
    exact List.getElem_mem _
  simp [h4]
  omega

/-! ## The neighbour scan -/

theorem scanRow_spec (row : List Int) : ∀ (vis : Visited) (dq : List Int),
    (∀ v ∈ row, 0 ≤ v ∧ v.toNat < vis.length) →
    ∃ vis1 new, scanRow vis dq row = .ok (vis1, dq ++ new) ∧
      vis1.length = vis.length ∧
      (∀ x, Marked vis1 x ↔ Marked vis x ∨ x ∈ row) ∧
      (∀ x, x ∈ new ↔ x ∈ row ∧ ¬ Marked vis x) ∧
      new.length + unvisited vis1 = unvisited vis := by
  induction row with
  | nil =>
    intro vis dq _
    exact ⟨vis, [], by simp [scanRow], rfl, by simp, by simp, by simp⟩
  | cons v vs ih =>
    intro vis dq hb
    obtain ⟨hv0, hv1⟩ := hb v (List.mem_cons_self _ _)
    obtain ⟨seen, hseen⟩ := readAt_of_lt vis hv0 hv1
    cases seen with
    | true =>
      have hm : Marked vis v := hseen
      obtain ⟨vis1, new, h1, h2, h3, h4, h5⟩ :=
        ih vis dq (fun w hw => hb w (List.mem_cons_of_mem _ hw))
      refine ⟨vis1, new, ?_, h2, ?_, ?_, h5⟩
      · simp [scanRow, hseen, h1]
      · intro x
        rw [h3 x, List.mem_cons]
        constructor
        · rintro (h | h)
          · exact Or.inl h
          · exact Or.inr (Or.inr h)
        · rintro (h | rfl | h)
          · exact Or.inl h
          · exact Or.inl hm
          · exact Or.inr h
      · intro x
        rw [h4 x, List.mem_cons]
        constructor
        · rintro ⟨h, hn⟩
          exact ⟨Or.inr h, hn⟩
        · rintro ⟨rfl | h, hn⟩
          · exact absurd hm hn
          · exact ⟨h, hn⟩
    | false =>
      have hnm : ¬ Marked vis v := by
        unfold Marked
        rw [hseen]
        simp
      have hw : writeAt vis v true = .ok (vis.set v.toNat true) := writeAt_of_lt true hv0 hv1
      have hlen : (vis.set v.toNat true).length = vis.length := by simp
      obtain ⟨vis1, new, h1, h2, h3, h4, h5⟩ :=
        ih (vis.set v.toNat true) (dq ++ [v])
          (fun w hw => by rw [hlen]; exact hb w (List.mem_cons_of_mem _ hw))
      refine ⟨vis1, v :: new, ?_, by rw [h2, hlen], ?_, ?_, ?_⟩
      · simp [scanRow, hseen, hw, h1]
      · intro x
        rw [h3 x, marked_writeAt hw x, List.mem_cons]
        tauto
      · intro x
        rw [List.mem_cons, h4 x, marked_writeAt hw x, List.mem_cons]
        constructor
        · rintro (rfl | ⟨h, hn⟩)
          · exact ⟨Or.inl rfl, hnm⟩
          · exact ⟨Or.inr h, fun hm => hn (Or.inl hm)⟩
        · rintro ⟨rfl | h, hn⟩
          · exact Or.inl rfl
          · by_cases hx : x = v
            · exact Or.inl hx
            · exact Or.inr ⟨h, fun hm => hm.elim hn hx⟩
      · have := unvisited_writeAt hseen hw
        simp only [List.length_cons]
        omega

/-! ## The breadth-first traversal -/

theorem marked_lt {vis : Visited} {v : Int} (h : Marked vis v) :
    0 ≤ v ∧ v.toNat < vis.length := readAt_ok_lt h

theorem reach_of_edge {adj : Adj} {u v : Int} (h : Edge adj u v) : Reach adj u v :=
  Relation.ReflTransGen.single h

theorem bfsLoop_spec (adj : Adj) (hsize : adj.length = MAX_ID + 1)
    (hR : ∀ u v, Edge adj u v → InRange v) :
    ∀ (fuel : Nat) (vis : Visited) (dq : List Int),
      vis.length = MAX_ID + 1 → (∀ x ∈ dq, Marked vis x) →
      dq.length + unvisited vis ≤ fuel →
      ∃ vis2, bfsLoop adj fuel vis dq = .ok vis2 ∧ vis2.length = MAX_ID + 1 ∧
        (∀ x, Marked vis x → Marked vis2 x) ∧
        (∀ x, Marked vis2 x → Marked vis x ∨ ∃ q ∈ dq, Reach adj q x) ∧
        ((∀ u, Marked vis u → u ∉ dq → ∀ v, Edge adj u v → Marked vis v) →
          Closed adj vis2) := by
  intro fuel
  induction fuel with
  | zero =>
    intro vis dq hlen hdq hfuel
    cases dq with
    | nil =>
      refine ⟨vis, by simp [bfsLoop], hlen, fun _ h => h, fun _ h => Or.inl h, ?_⟩
      intro hc u v hu he
      exact hc u hu (by simp) v he
    | cons u dq =>
      simp at hfuel
  | succ fuel ih =>
    intro vis dq hlen hdq hfuel
    cases dq with
    | nil =>
      refine ⟨vis, by simp [bfsLoop], hlen, fun _ h => h, fun _ h => Or.inl h, ?_⟩
      intro hc u v hu he
      exact hc u hu (by simp) v he
    | cons u dq =>
      obtain ⟨hu0, hu1⟩ := marked_lt (hdq u (List.mem_cons_self _ _))
      obtain ⟨row, hrow⟩ := readAt_of_lt adj hu0 (by rw [hsize, ← hlen]; exact hu1)
      have hb : ∀ v ∈ row, 0 ≤ v ∧ v.toNat < vis.length := by
        intro v hv
        obtain ⟨h0, h1⟩ := hR u v ⟨row, hrow, hv⟩
        refine ⟨h0, ?_⟩
        rw [hlen]
        omega
      obtain ⟨vis1, new, h1, h2, h3, h4, h5⟩ := scanRow_spec row vis dq hb
      have hdq1 : ∀ x ∈ dq ++ new, Marked vis1 x := by
        intro x hx
        rw [List.mem_append] at hx
        rw [h3 x]
        rcases hx with hx | hx
        · exact Or.inl (hdq x (List.mem_cons_of_mem _ hx))
        · exact Or.inr ((h4 x).1 hx).1
      have hfuel1 : (dq ++ new).length + unvisited vis1 ≤ fuel := by
        simp only [List.length_cons, List.length_append] at hfuel ⊢
        omega
      obtain ⟨vis2, k1, k2, k3, k4, k5⟩ := ih vis1 (dq ++ new) (h2.trans hlen) hdq1 hfuel1
      refine ⟨vis2, ?_, k2, ?_, ?_, ?_⟩
      · simp [bfsLoop, hrow, h1, k1]
      · intro x hx
        exact k3 x ((h3 x).2 (Or.inl hx))
      · intro x hx
        rcases k4 x hx with hx1 | ⟨q, hq, hqx⟩
        · rcases (h3 x).1 hx1 with hx2 | hx2
          · exact Or.inl hx2
          · exact Or.inr ⟨u, List.mem_cons_self _ _, reach_of_edge ⟨row, hrow, hx2⟩⟩
        · rw [List.mem_append] at hq
          rcases hq with hq | hq
          · exact Or.inr ⟨q, List.mem_cons_of_mem _ hq, hqx⟩
          · refine Or.inr ⟨u, List.mem_cons_self _ _, ?_⟩
            exact Relation.ReflTransGen.head ⟨row, hrow, ((h4 q).1 hq).1⟩ hqx
      · intro hc
        apply k5
        intro w hw hwq v hwv
        rw [h3 v]
        rw [List.mem_append, not_or] at hwq
        by_cases hwold : Marked vis w
        · by_cases hwu : w = u
          · subst hwu
            obtain ⟨row1, hrow1, hv⟩ := hwv
            rw [hrow] at hrow1
            cases hrow1
            exact Or.inr hv
          · refine Or.inl (hc w hwold ?_ v hwv)
            simp [hwu, hwq.1]
        · exfalso
          rcases (h3 w).1 hw with h | h
          · exact hwold h
          · exact hwq.2 ((h4 w).2 ⟨h, hwold⟩)

/-- One traversal started at an unmarked in-range vertex of a closed set of
marks: the result is closed and marks exactly the old vertices together with
everything reachable from the start. -/
theorem bfs_from_start (adj : Adj) (hsize : adj.length = MAX_ID + 1)
    (hR : ∀ u v, Edge adj u v → InRange v) (fuel : Nat) (hfuel : MAX_ID + 1 ≤ fuel)
    (vis vis1 : Visited) (start : Int) (hlen : vis.length = MAX_ID + 1)
    (hclosed : Closed adj vis) (hr : readAt vis start = .ok false)
    (hw : writeAt vis start true = .ok vis1) :
    ∃ vis2, bfsLoop adj fuel vis1 [start] = .ok vis2 ∧ vis2.length = MAX_ID + 1 ∧
      Closed adj vis2 ∧ ∀ x, Marked vis2 x ↔ Marked vis x ∨ Reach adj start x := by
  have hlen1 : vis1.length = MAX_ID + 1 := (writeAt_length hw).trans hlen
  have hstart : Marked vis1 start := readAt_writeAt_self hw
  have hun : unvisited vis1 + 1 = unvisited vis := unvisited_writeAt hr hw
  have hle : unvisited vis ≤ MAX_ID + 1 := by
    unfold unvisited
    rw [← hlen]
    exact List.count_le_length _ _
  obtain ⟨vis2, k1, k2, k3, k4, k5⟩ := bfsLoop_spec adj hsize hR fuel vis1 [start] hlen1
    (by simpa using hstart) (by simp only [List.length_singleton]; omega)
  have hcl : Closed adj vis2 := by
    apply k5
    intro u hu hus v huv
    rw [marked_writeAt hw] at hu ⊢
    rcases hu with hu | hu
    · exact Or.inl (hclosed u v hu huv)
    · exact absurd hu (by simpa using hus)
  refine ⟨vis2, k1, k2, hcl, fun x => ⟨?_, ?_⟩⟩
  · intro hx
    rcases k4 x hx with h | ⟨q, hq, hqx⟩
    · rcases (marked_writeAt hw x).1 h with h | rfl
      · exact Or.inl h
      · exact Or.inr Relation.ReflTransGen.refl
    · rw [List.mem_singleton] at hq
      subst hq
      exact Or.inr hqx
  · rintro (h | h)
    · exact k3 x ((marked_writeAt hw x).2 (Or.inl h))
    · have hs2 : Marked vis2 start := k3 start hstart
      induction h with
      | refl => exact hs2
      | tail _ hbc ih => exact hcl _ _ ih hbc

/-! ## The inspection loop -/

theorem inRange_lt {v : Int} (h : InRange v) {n : Nat} (hn : n = MAX_ID + 1) :
    0 ≤ v ∧ v.toNat < n := by
  obtain ⟨h0, h1⟩ := h
  refine ⟨h0, ?_⟩
  omega

theorem not_guard_iff (start : Int) :
    ¬ (start < 0 ∨ start > (MAX_ID : Int)) ↔ InRange start := by
  unfold InRange
  omega

/-- Specification of the inspection loop on a map with in-range rows, started
from a closed set of marks: the loop succeeds, and the sector counter grows by
the length of a list `reps` of traversal starts with the listed properties. -/
theorem sectorLoop_spec (adj : Adj) (hsize : adj.length = MAX_ID + 1)
    (hR : ∀ u v, Edge adj u v → InRange v) (fuel : Nat) (hfuel : MAX_ID + 1 ≤ fuel) :
    ∀ (L : List Int) (vis : Visited) (s : Int),
      vis.length = MAX_ID + 1 → Closed adj vis →
      ∃ (vis2 : Visited) (reps : List Int),
        sectorLoop fuel adj vis s L = .ok (vis2, s + (reps.length : Int)) ∧
        vis2.length = MAX_ID + 1 ∧ Closed adj vis2 ∧
        (∀ x, Marked vis2 x ↔ Marked vis x ∨ ∃ r ∈ reps, Reach adj r x) ∧
        (∀ r ∈ reps, r ∈ L ∧ InRange r ∧ ¬ Marked vis r) ∧
        reps.Pairwise (fun a b => ¬ Reach adj a b) ∧
        (∀ v ∈ L, InRange v → Marked vis2 v) := by
  intro L
  induction L with
  | nil =>
    intro vis s hlen hcl
    exact ⟨vis, [], by simp [sectorLoop], hlen, hcl, by simp, by simp, by simp, by simp⟩
  | cons start rest ih =>
    intro vis s hlen hcl
    by_cases hg : start < 0 ∨ start > (MAX_ID : Int)
    · obtain ⟨vis2, reps, h1, h2, h3, h4, h5, h6, h7⟩ := ih vis s hlen hcl
      refine ⟨vis2, reps, by simp only [sectorLoop, hg, if_true, h1], h2, h3, h4, ?_, h6, ?_⟩
      · intro r hr
        obtain ⟨a, b, c⟩ := h5 r hr
        exact ⟨List.mem_cons_of_mem _ a, b, c⟩
      · intro v hv hin
        rcases List.mem_cons.1 hv with rfl | hv
        · exact absurd hg ((not_guard_iff v).2 hin)
        · exact h7 v hv hin
    · have hin : InRange start := (not_guard_iff start).1 hg
      obtain ⟨hs0, hs1⟩ := inRange_lt hin hlen
      obtain ⟨seen, hseen⟩ := readAt_of_lt vis hs0 hs1
      cases seen with
      | true =>
        obtain ⟨vis2, reps, h1, h2, h3, h4, h5, h6, h7⟩ := ih vis s hlen hcl
        refine ⟨vis2, reps, ?_, h2, h3, h4, ?_, h6, ?_⟩
        · simp only [sectorLoop, hg, if_false, hseen, if_true, h1]
        · intro r hr
          obtain ⟨a, b, c⟩ := h5 r hr
          exact ⟨List.mem_cons_of_mem _ a, b, c⟩
        · intro v hv hvin
          rcases List.mem_cons.1 hv with rfl | hv
          · exact (h4 v).2 (Or.inl hseen)
          · exact h7 v hv hvin
      | false =>
        have hnm : ¬ Marked vis start := by
          unfold Marked
          rw [hseen]
          simp
        have hw : writeAt vis start true = .ok (vis.set start.toNat true) :=
          writeAt_of_lt true hs0 hs1
        obtain ⟨visB, b1, b2, b3, b4⟩ :=
          bfs_from_start adj hsize hR fuel hfuel vis _ start hlen hcl hseen hw
        obtain ⟨vis2, reps, h1, h2, h3, h4, h5, h6, h7⟩ := ih visB (s + 1) b2 b3
        refine ⟨vis2, start :: reps, ?_, h2, h3, ?_, ?_, ?_, ?_⟩
        · simp only [sectorLoop, hg, if_false, hseen, hw, b1, h1, Bool.false_eq_true]
          simp only [List.length_cons, Nat.cast_add, Nat.cast_one]
          congr 2
          ring
        · intro x
          rw [h4 x, b4 x]
          simp only [List.mem_cons, exists_eq_or_imp]
          tauto
        · intro r hr
          rcases List.mem_cons.1 hr with rfl | hr
          · exact ⟨List.mem_cons_self _ _, hin, hnm⟩
          · obtain ⟨a, b, c⟩ := h5 r hr
            exact ⟨List.mem_cons_of_mem _ a, b, fun hm => c ((b4 r).2 (Or.inl hm))⟩
        · rw [List.pairwise_cons]
          refine ⟨?_, h6⟩
          intro r hr hreach
          exact (h5 r hr).2.2 ((b4 r).2 (Or.inr hreach))
        · intro v hv hvin
          rcases List.mem_cons.1 hv with rfl | hv
          · exact (h4 v).2 (Or.inl ((b4 v).2 (Or.inr Relation.ReflTransGen.refl)))
          · exact h7 v hv hvin

/-! ## The sector count as a number of components -/

theorem initVisited_length : initVisited.length = MAX_ID + 1 := by
  simp [initVisited]

theorem not_marked_initVisited (x : Int) : ¬ Marked initVisited x := by
  rw [marked_iff]
  rintro ⟨-, h⟩
  rw [initVisited, List.getElem?_replicate] at h
  split at h <;> simp at h

theorem closed_initVisited (adj : Adj) : Closed adj initVisited :=
  fun u _ hu _ => absurd hu (not_marked_initVisited u)

/-- The counting pass succeeds and returns the length of a list of traversal
starts: in-range inspection IDs, none reachable from an earlier one, from which
every in-range inspection ID is reachable. -/
theorem countSectors_reps (adj : Adj) (hsize : adj.length = MAX_ID + 1)
    (hR : ∀ u v, Edge adj u v → InRange v) (fuel : Nat) (hfuel : MAX_ID + 1 ≤ fuel)
    (L : List Int) :
    ∃ reps : List Int, countSectors fuel adj L = .ok (reps.length : Int) ∧
      (∀ r ∈ reps, r ∈ L ∧ InRange r) ∧
      reps.Pairwise (fun a b => ¬ Reach adj a b) ∧
      (∀ v ∈ L, InRange v → ∃ r ∈ reps, Reach adj r v) := by
  obtain ⟨vis2, reps, h1, -, -, h4, h5, h6, h7⟩ :=
    sectorLoop_spec adj hsize hR fuel hfuel L initVisited 0 initVisited_length
      (closed_initVisited adj)
  refine ⟨reps, ?_, fun r hr => ⟨(h5 r hr).1, (h5 r hr).2.1⟩, h6, ?_⟩
  · simp [countSectors, h1]
  · intro v hv hin
    rcases (h4 v).1 (h7 v hv hin) with h | h
    · exact absurd h (not_marked_initVisited v)
    · exact h

theorem reach_symm {adj : Adj} (hs : ∀ u v, Edge adj u v → Edge adj v u) {a b : Int}
    (h : Reach adj a b) : Reach adj b a :=
  Relation.ReflTransGen.symmetric (fun u v => hs u v) h

theorem component_eq_of_reach {adj : Adj} (hs : ∀ u v, Edge adj u v → Edge adj v u)
    {a b : Int} (h : Reach adj a b) : component adj a = component adj b := by
  ext x
  simp only [component, Set.mem_setOf_eq]
  exact ⟨fun hx => (reach_symm hs h).trans hx, fun hx => Relation.ReflTransGen.trans h hx⟩

theorem mem_component_self (adj : Adj) (v : Int) : v ∈ component adj v :=
  Relation.ReflTransGen.refl

/-- With symmetric rows, the touched components are the components of the
traversal starts, one each. -/
theorem touched_ncard_of_reps (adj : Adj) (hs : ∀ u v, Edge adj u v → Edge adj v u)
    (L reps : List Int) (h1 : ∀ r ∈ reps, r ∈ L ∧ InRange r)
    (h2 : reps.Pairwise (fun a b => ¬ Reach adj a b))
    (h3 : ∀ v ∈ L, InRange v → ∃ r ∈ reps, Reach adj r v) :
    (touched adj L).ncard = reps.length := by
  have hnodup : reps.Nodup := by
    refine h2.imp ?_
    intro a b hab heq
    subst heq
    exact hab Relation.ReflTransGen.refl
  have himg : touched adj L = component adj '' (↑reps.toFinset : Set Int) := by
    ext c
    simp only [touched, IsComponent, Set.mem_setOf_eq, Set.mem_image, Finset.mem_coe,
      List.mem_toFinset]
    constructor
    · rintro ⟨⟨w, -, rfl⟩, v, hv, hvin, hwv⟩
      obtain ⟨r, hr, hrv⟩ := h3 v hv hvin
      refine ⟨r, hr, ?_⟩
      exact component_eq_of_reach hs (hrv.trans (reach_symm hs hwv))
    · rintro ⟨r, hr, rfl⟩
      exact ⟨⟨r, (h1 r hr).2, rfl⟩, r, (h1 r hr).1, (h1 r hr).2, mem_component_self adj r⟩
  have hinj : Set.InjOn (component adj) (↑reps.toFinset : Set Int) := by
    intro a ha b hb hab
    simp only [Finset.mem_coe, List.mem_toFinset] at ha hb
    by_contra hne
    have hab1 : Reach adj a b := by
      have : b ∈ component adj a := by
        rw [hab]
        exact mem_component_self adj b
      exact this
    have hba1 : Reach adj b a := by
      have : a ∈ component adj b := by
        rw [← hab]
        exact mem_component_self adj a
      exact this
    have hpw : reps.Pairwise (fun p q => ¬ Reach adj p q ∨ ¬ Reach adj q p) :=
      h2.imp Or.inl
    have hsym : ¬ Reach adj a b ∨ ¬ Reach adj b a :=
      hpw.forall (fun _ _ h => h.symm) ha hb hne
    rcases hsym with h | h
    · exact h hab1
    · exact h hba1
  rw [himg, Set.ncard_image_of_injOn hinj, Set.ncard_coe_Finset,
    List.toFinset_card_of_nodup hnodup]

/-! ## The graph builder -/

theorem pushAt_ok {adj adj1 : Adj} {i x : Int} (h : pushAt adj i x = .ok adj1) :
    ∃ row, readAt adj i = .ok row ∧ writeAt adj i (row ++ [x]) = .ok adj1 := by
  unfold pushAt at h
  cases hr : readAt adj i with
  | error e => simp [hr] at h
  | ok row =>
    simp only [hr] at h
    exact ⟨row, rfl, h⟩

theorem pushAt_of_lt (adj : Adj) {i : Int} (x : Int) (h0 : 0 ≤ i) (h1 : i.toNat < adj.length) :
    ∃ row adj1, readAt adj i = .ok row ∧ writeAt adj i (row ++ [x]) = .ok adj1 ∧
      pushAt adj i x = .ok adj1 := by
  obtain ⟨row, hrow⟩ := readAt_of_lt adj h0 h1
  refine ⟨row, adj.set i.toNat (row ++ [x]), hrow, writeAt_of_lt _ h0 h1, ?_⟩
  simp [pushAt, hrow, writeAt_of_lt _ h0 h1]

theorem addEdge_of_not_inRange (adj : Adj) (a b : Int) (h : ¬ (InRange a ∧ InRange b)) :
    addEdge adj a b = .ok adj := by
  unfold addEdge
  have : ¬ (a ≥ 0 ∧ a ≤ (MAX_ID : Int) ∧ b ≥ 0 ∧ b ≤ (MAX_ID : Int)) := by
    unfold InRange at h
    tauto
  simp only [this, if_false]

theorem addEdge_unfold_inRange (adj : Adj) (a b : Int) (ha : InRange a) (hb : InRange b) :
    addEdge adj a b =
      match pushAt adj a b with
      | .error e => .error e
      | .ok adj1 => pushAt adj1 b a := by
  unfold addEdge
  have : a ≥ 0 ∧ a ≤ (MAX_ID : Int) ∧ b ≥ 0 ∧ b ≤ (MAX_ID : Int) := ⟨ha.1, ha.2, hb.1, hb.2⟩
  simp only [this, and_self, if_true]

/-- The two writes performed by an accepted `addEdge`. -/
theorem addEdge_ok_inRange {adj adj2 : Adj} {a b : Int} (ha : InRange a) (hb : InRange b)
    (h : addEdge adj a b = .ok adj2) :
    ∃ rowA adj1 rowB, readAt adj a = .ok rowA ∧ writeAt adj a (rowA ++ [b]) = .ok adj1 ∧
      readAt adj1 b = .ok rowB ∧ writeAt adj1 b (rowB ++ [a]) = .ok adj2 := by
  rw [addEdge_unfold_inRange adj a b ha hb] at h
  cases hp : pushAt adj a b with
  | error e => simp [hp] at h
  | ok adj1 =>
    simp only [hp] at h
    obtain ⟨rowA, r1, w1⟩ := pushAt_ok hp
    obtain ⟨rowB, r2, w2⟩ := pushAt_ok h
    exact ⟨rowA, adj1, rowB, r1, w1, r2, w2⟩

/-- On a map with one row per vertex, an in-range `addEdge` succeeds. -/
theorem addEdge_of_inRange (adj : Adj) (hsize : adj.length = MAX_ID + 1) (a b : Int)
    (ha : InRange a) (hb : InRange b) : ∃ adj2, addEdge adj a b = .ok adj2 := by
  obtain ⟨a0, a1⟩ := inRange_lt ha hsize
  obtain ⟨rowA, adj1, -, w1, p1⟩ := pushAt_of_lt adj b a0 a1
  have hsize1 : adj1.length = MAX_ID + 1 := (writeAt_length w1).trans hsize
  obtain ⟨b0, b1⟩ := inRange_lt hb hsize1
  obtain ⟨rowB, adj2, -, -, p2⟩ := pushAt_of_lt adj1 a b0 b1
  refine ⟨adj2, ?_⟩
  rw [addEdge_unfold_inRange adj a b ha hb, p1]
  exact p2

theorem addEdge_length {adj adj2 : Adj} {a b : Int} (h : addEdge adj a b = .ok adj2) :
    adj2.length = adj.length := by
  by_cases hr : InRange a ∧ InRange b
  · obtain ⟨rowA, adj1, rowB, -, w1, -, w2⟩ := addEdge_ok_inRange hr.1 hr.2 h
    rw [writeAt_length w2, writeAt_length w1]
  · rw [addEdge_of_not_inRange adj a b hr] at h
    cases h
    rfl

/-- The stored entries after an accepted `addEdge`. -/
theorem edge_addEdge {adj adj2 : Adj} {a b : Int} (ha : InRange a) (hb : InRange b)
    (h : addEdge adj a b = .ok adj2) (u v : Int) :
    Edge adj2 u v ↔ Edge adj u v ∨ (u = a ∧ v = b) ∨ (u = b ∧ v = a) := by
  obtain ⟨rowA, adj1, rowB, r1, w1, r2, w2⟩ := addEdge_ok_inRange ha hb h
  have e1 : ∀ u v, Edge adj1 u v ↔ Edge adj u v ∨ (u = a ∧ v = b) := by
    intro u v
    unfold Edge
    by_cases hu : u = a
    · subst hu
      rw [readAt_writeAt_self w1, r1]
      simp
    · rw [readAt_writeAt_ne w1 hu]
      simp [hu]
  have e2 : ∀ u v, Edge adj2 u v ↔ Edge adj1 u v ∨ (u = b ∧ v = a) := by
    intro u v
    unfold Edge
    by_cases hu : u = b
    · subst hu
      rw [readAt_writeAt_self w2, r2]
      simp
    · rw [readAt_writeAt_ne w2 hu]
      simp [hu]
  rw [e2, e1]
  tauto

theorem edge_lt {adj : Adj} {u v : Int} (h : Edge adj u v) : 0 ≤ u ∧ u.toNat < adj.length := by
  obtain ⟨row, hrow, -⟩ := h
  exact readAt_ok_lt hrow

theorem not_edge_emptyAdj (u v : Int) : ¬ Edge emptyAdj u v := by
  rintro ⟨row, hrow, hv⟩
  obtain ⟨-, h⟩ := (readAt_ok_iff _ _ _).1 hrow
  rw [emptyAdj, List.getElem?_replicate] at h
  split at h
  · cases h
    simp at hv
  · simp at h

theorem wf_emptyAdj : WF emptyAdj where
  size := by simp [emptyAdj]
  inRange := fun u v h => absurd h (not_edge_emptyAdj u v)
  symm := fun u v h => absurd h (not_edge_emptyAdj u v)

theorem wf_addEdge {adj adj2 : Adj} {a b : Int} (hwf : WF adj)
    (h : addEdge adj a b = .ok adj2) : WF adj2 := by
  by_cases hr : InRange a ∧ InRange b
  · obtain ⟨ha, hb⟩ := hr
    refine ⟨(addEdge_length h).trans hwf.size, ?_, ?_⟩
    · intro u v huv
      rcases (edge_addEdge ha hb h u v).1 huv with h1 | ⟨-, rfl⟩ | ⟨-, rfl⟩
      · exact hwf.inRange u v h1
      · exact hb
      · exact ha
    · intro u v huv
      rw [edge_addEdge ha hb h] at huv ⊢
      rcases huv with h1 | ⟨rfl, rfl⟩ | ⟨rfl, rfl⟩
      · exact Or.inl (hwf.symm u v h1)
      · exact Or.inr (Or.inr ⟨rfl, rfl⟩)
      · exact Or.inr (Or.inl ⟨rfl, rfl⟩)
  · rw [addEdge_of_not_inRange adj a b hr] at h
    cases h
    exact hwf

theorem wf_addEdges (es : List (Int × Int)) : ∀ {adj adj2 : Adj}, WF adj →
    addEdges adj es = .ok adj2 → WF adj2 := by
  induction es with
  | nil =>
    intro adj adj2 hwf h
    simp only [addEdges] at h
    cases h
    exact hwf
  | cons e es ih =>
    intro adj adj2 hwf h
    simp only [addEdges] at h
    cases h1 : addEdge adj e.1 e.2 with
    | error err => simp [h1] at h
    | ok adj1 =>
      simp only [h1] at h
      exact ih (wf_addEdge hwf h1) h

/-- Every map produced by the graph builder is well formed. -/
theorem wf_of_built {adj : Adj} (h : Built adj) : WF adj := by
  obtain ⟨es, hes⟩ := h
  exact wf_addEdges es wf_emptyAdj hes

/-- The graph builder never faults: every finite sequence of `addEdge` calls
on a well-formed map produces a map. -/
theorem addEdges_total (es : List (Int × Int)) : ∀ {adj : Adj}, WF adj →
    ∃ adj2, addEdges adj es = .ok adj2 := by
  induction es with
  | nil =>
    intro adj _
    exact ⟨adj, rfl⟩
  | cons e es ih =>
    intro adj hwf
    have h1 : ∃ adj1, addEdge adj e.1 e.2 = .ok adj1 := by
      by_cases hr : InRange e.1 ∧ InRange e.2
      · exact addEdge_of_inRange adj hwf.size e.1 e.2 hr.1 hr.2
      · exact ⟨adj, addEdge_of_not_inRange adj e.1 e.2 hr⟩
    obtain ⟨adj1, h1⟩ := h1
    obtain ⟨adj2, h2⟩ := ih (wf_addEdge hwf h1)
    exact ⟨adj2, by simp only [addEdges, h1, h2]⟩

theorem built_addEdge {adj adj2 : Adj} {a b : Int} (hb : Built adj)
    (h : addEdge adj a b = .ok adj2) : Built adj2 := by
  obtain ⟨es, hes⟩ := hb
  refine ⟨es ++ [(a, b)], ?_⟩
  have key : ∀ (es : List (Int × Int)) (g : Adj), addEdges g es = .ok adj →
      addEdges g (es ++ [(a, b)]) = .ok adj2 := by
    intro es
    induction es with
    | nil =>
      intro g hg
      simp only [addEdges] at hg
      cases hg
      simp [addEdges, h]
    | cons e es ih =>
      intro g hg
      simp only [addEdges, List.cons_append] at hg ⊢
      cases h1 : addEdge g e.1 e.2 with
      | error err => simp [h1] at hg
      | ok g1 =>
        simp only [h1] at hg ⊢
        exact ih g1 hg
  exact key es emptyAdj hes

/-! ## Sector counts of well-formed maps -/

/-- On a well-formed map and with enough fuel, the counting pass returns the
number of touched components. -/
theorem countSectors_wf {adj : Adj} (hwf : WF adj) {fuel : Nat} (hfuel : MAX_ID + 1 ≤ fuel)
    (L : List Int) : countSectors fuel adj L = .ok ((touched adj L).ncard : Int) := by
  obtain ⟨reps, h1, h2, h3, h4⟩ := countSectors_reps adj hwf.size hwf.inRange fuel hfuel L
  rw [h1, touched_ncard_of_reps adj hwf.symm L reps h2 h3 h4]

theorem touched_congr (adj : Adj) {L1 L2 : List Int} (h : ∀ x, x ∈ L1 ↔ x ∈ L2) :
    touched adj L1 = touched adj L2 := by
  ext c
  simp only [touched, Set.mem_setOf_eq, h]

theorem touched_of_no_inRange (adj : Adj) {L : List Int} (h : ∀ v ∈ L, ¬ InRange v) :
    touched adj L = ∅ := by
  ext c
  simp only [touched, Set.mem_setOf_eq, Set.mem_empty_iff_false, iff_false]
  rintro ⟨-, v, hv, hin, -⟩
  exact h v hv hin

/-- When every in-range inspection ID lies in the component of the in-range
inspection ID `r`, that component is the only touched one. -/
theorem touched_eq_singleton {adj : Adj} (hs : ∀ u v, Edge adj u v → Edge adj v u)
    {L : List Int} {r : Int} (hr : r ∈ L) (hrin : InRange r)
    (hall : ∀ v ∈ L, InRange v → Reach adj r v) :
    touched adj L = {component adj r} := by
  ext c
  simp only [touched, IsComponent, Set.mem_setOf_eq, Set.mem_singleton_iff]
  constructor
  · rintro ⟨⟨w, -, rfl⟩, v, hv, hvin, hwv⟩
    exact component_eq_of_reach hs (Relation.ReflTransGen.trans hwv (reach_symm hs (hall v hv hvin)))
  · rintro rfl
    exact ⟨⟨r, hrin, rfl⟩, r, hr, hrin, mem_component_self adj r⟩

theorem drives_of_countSectors {fuel : Nat} {adj : Adj} {L : List Int} {n : Int}
    (h : countSectors fuel adj L = .ok n) : drives fuel adj L = .ok (drivesOf n) := by
  simp [drives, h]

/-- The sector counter stays within `0 .. MAX_ID + 1`, far from the limits of
a machine `int`. -/
theorem countSectors_le {adj : Adj} (hwf : WF adj) {fuel : Nat} (hfuel : MAX_ID + 1 ≤ fuel)
    (L : List Int) :
    ∃ k : Int, countSectors fuel adj L = .ok k ∧ 0 ≤ k ∧ k ≤ (MAX_ID : Int) + 1 := by
  obtain ⟨reps, h1, h2, h3, -⟩ := countSectors_reps adj hwf.size hwf.inRange fuel hfuel L
  refine ⟨_, h1, Int.natCast_nonneg _, ?_⟩
  have hnodup : reps.Nodup := by
    refine h3.imp ?_
    intro a b hab heq
    subst heq
    exact hab Relation.ReflTransGen.refl
  have hsub : reps.toFinset ⊆ Finset.Icc (0 : Int) (MAX_ID : Int) := by
    intro r hr
    rw [List.mem_toFinset] at hr
    rw [Finset.mem_Icc]
    exact (h2 r hr).2
  have hcard := Finset.card_le_card hsub
  rw [List.toFinset_card_of_nodup hnodup, Int.card_Icc] at hcard
  omega

/-! ## The scenario graph -/

set_option maxRecDepth 100000 in
theorem addEdges_scenario : addEdges emptyAdj [(1, 2), (2, 1), (3, 4)] = .ok scenarioAdj := by
  decide

theorem built_scenarioAdj : Built scenarioAdj := ⟨_, addEdges_scenario⟩

set_option maxRecDepth 100000 in
theorem countSectors_scenario_eval : countSectors 1001 scenarioAdj [1, 4] = .ok 2 := by
  decide

theorem fuel_1001 : MAX_ID + 1 ≤ 1001 := by decide

theorem touched_scenario : (touched scenarioAdj [1, 4]).ncard = 2 := by
  have h := countSectors_wf (wf_of_built built_scenarioAdj) fuel_1001 [1, 4]
  rw [countSectors_scenario_eval] at h
  have h2 : (2 : Int) = ((touched scenarioAdj [1, 4]).ncard : Int) := by
    injection h
  exact_mod_cast h2.symm

/-! ## Claims about the sector count -/

/-- C1: for every adjacency map produced by the graph builder and every
inspection list, the counting pass (with enough fuel for the traversals)
returns the number of connected components that contain at least one in-range
ID of the list; the components form a set, so each is counted once. -/
theorem countSectors_eq_touched_components (adj : Adj) (hb : Built adj) (fuel : Nat)
    (hfuel : MAX_ID + 1 ≤ fuel) (L : List Int) :
    countSectors fuel adj L = .ok ((touched adj L).ncard : Int) :=
  countSectors_wf (wf_of_built hb) hfuel L

theorem countSectors_eq_touched_components_witness :
    Built scenarioAdj ∧ MAX_ID + 1 ≤ 1001 ∧
      countSectors 1001 scenarioAdj [1, 4] = .ok ((touched scenarioAdj [1, 4]).ncard : Int) :=
  ⟨built_scenarioAdj, fuel_1001,
    countSectors_eq_touched_components scenarioAdj built_scenarioAdj 1001 fuel_1001 [1, 4]⟩

/-- C2: for every built adjacency map and inspection list, if the in-range
IDs of the list span exactly `k ≥ 1` components then the printed number of
drives is `k - 1`; it is `0` when all in-range IDs lie in one component; and it
is `1` for the scenario with edges 1-2, 2-1, 3-4 and inspection list `[1, 4]`. -/
theorem drives_eq_components_pred (adj : Adj) (hb : Built adj) (fuel : Nat)
    (hfuel : MAX_ID + 1 ≤ fuel) (L : List Int) :
    (∀ k : Nat, (touched adj L).ncard = k → 1 ≤ k →
        drives fuel adj L = .ok ((k : Int) - 1)) ∧
      (∀ c, IsComponent adj c → (∀ v ∈ L, InRange v → v ∈ c) → drives fuel adj L = .ok 0) ∧
      (addEdges emptyAdj [(1, 2), (2, 1), (3, 4)] = .ok scenarioAdj ∧
        drives fuel scenarioAdj [1, 4] = .ok 1) := by
  have hwf := wf_of_built hb
  have hcount := countSectors_wf hwf hfuel L
  refine ⟨?_, ?_, addEdges_scenario, ?_⟩
  · intro k hk hk1
    rw [drives_of_countSectors hcount, hk]
    have : (0 : Int) < (k : Int) := by exact_mod_cast hk1
    simp [drivesOf, this]
  · rintro c ⟨w, -, rfl⟩ hall
    rw [drives_of_countSectors hcount]
    by_cases hex : ∃ r ∈ L, InRange r
    · obtain ⟨r, hr, hrin⟩ := hex
      have hwr : Reach adj w r := hall r hr hrin
      have hsing : touched adj L = {component adj r} :=
        touched_eq_singleton hwf.symm hr hrin
          (fun v hv hvin => (reach_symm hwf.symm hwr).trans (hall v hv hvin))
      rw [hsing, Set.ncard_singleton]
      simp [drivesOf]
    · have hnone : ∀ v ∈ L, ¬ InRange v := fun v hv hin => hex ⟨v, hv, hin⟩
      rw [touched_of_no_inRange adj hnone, Set.ncard_empty]
      simp [drivesOf]
  · have h := countSectors_wf (wf_of_built built_scenarioAdj) hfuel [1, 4]
    rw [touched_scenario] at h
    rw [drives_of_countSectors h]
    simp [drivesOf]

theorem drives_eq_components_pred_witness :
    Built scenarioAdj ∧ MAX_ID + 1 ≤ 1001 ∧
      ((touched scenarioAdj [1, 4]).ncard = 2 → 1 ≤ 2 →
        drives 1001 scenarioAdj [1, 4] = .ok ((2 : Nat) - 1 : Int)) :=
  ⟨built_scenarioAdj, fuel_1001,
    (drives_eq_components_pred scenarioAdj built_scenarioAdj 1001 fuel_1001 [1, 4]).1 2⟩

/-- C3: for every adjacency map of an undirected graph over the vertex domain
(one row per vertex, in-range and mirrored entries, as every map of the graph
builder is), the sector count (with enough fuel) is the same for every
permutation of the inspection list, and it is a proper result rather than a
fault. -/
theorem countSectors_perm (adj : Adj) (hwf : WF adj) (fuel : Nat)
    (hfuel : MAX_ID + 1 ≤ fuel) (L L2 : List Int) (hp : L2.Perm L) :
    countSectors fuel adj L2 = countSectors fuel adj L ∧
      ∃ k : Int, countSectors fuel adj L = .ok k := by
  rw [countSectors_wf hwf hfuel L2, countSectors_wf hwf hfuel L,
    touched_congr adj (fun x => hp.mem_iff)]
  exact ⟨rfl, _, rfl⟩

theorem countSectors_perm_witness :
    WF scenarioAdj ∧ MAX_ID + 1 ≤ 1001 ∧ [4, 2, 1].Perm [1, 2, 4] ∧
      (countSectors 1001 scenarioAdj [4, 2, 1] = countSectors 1001 scenarioAdj [1, 2, 4] ∧
        ∃ k : Int, countSectors 1001 scenarioAdj [1, 2, 4] = .ok k) :=
  ⟨wf_of_built built_scenarioAdj, fuel_1001, by decide,
    countSectors_perm scenarioAdj (wf_of_built built_scenarioAdj) 1001 fuel_1001 [1, 2, 4]
      [4, 2, 1] (by decide)⟩

/-- C4: for every adjacency map of an undirected graph over the vertex domain
(as every map of the graph builder is), removing repeated IDs from the
inspection list does not change the sector count; the list `[5, 5, 5]` gives
one sector and zero drives (in particular when vertex 5 is isolated). -/
theorem countSectors_dedup (adj : Adj) (hwf : WF adj) (fuel : Nat)
    (hfuel : MAX_ID + 1 ≤ fuel) (L : List Int) :
    countSectors fuel adj L = countSectors fuel adj L.dedup ∧
      countSectors fuel adj [5, 5, 5] = .ok 1 ∧ drives fuel adj [5, 5, 5] = .ok 0 := by
  have h5 : InRange 5 := by decide
  have hsing : touched adj [5, 5, 5] = {component adj 5} := by
    refine touched_eq_singleton hwf.symm (List.mem_cons_self _ _) h5 ?_
    intro v hv _
    simp only [List.mem_cons, List.mem_singleton, or_self, List.not_mem_nil, or_false] at hv
    subst hv
    exact Relation.ReflTransGen.refl
  have hc : countSectors fuel adj [5, 5, 5] = .ok 1 := by
    rw [countSectors_wf hwf hfuel, hsing, Set.ncard_singleton]
    rfl
  refine ⟨?_, hc, ?_⟩
  · rw [countSectors_wf hwf hfuel L, countSectors_wf hwf hfuel L.dedup,
      touched_congr adj (fun _ => List.mem_dedup.symm)]
  · rw [drives_of_countSectors hc]
    rfl

theorem countSectors_dedup_witness :
    WF emptyAdj ∧ MAX_ID + 1 ≤ 1001 ∧
      (countSectors 1001 emptyAdj [5, 7, 5] = countSectors 1001 emptyAdj [5, 7, 5].dedup ∧
        countSectors 1001 emptyAdj [5, 5, 5] = .ok 1 ∧ drives 1001 emptyAdj [5, 5, 5] = .ok 0) :=
  ⟨wf_emptyAdj, fuel_1001, countSectors_dedup emptyAdj wf_emptyAdj 1001 fuel_1001 [5, 7, 5]⟩

/-! ## Out-of-range inspection IDs -/

/-- One iteration of the inspection loop on an out-of-range ID. -/
theorem sectorLoop_skip (fuel : Nat) (adj : Adj) (vis : Visited) (s : Int) (start : Int)
    (rest : List Int) (h : ¬ InRange start) :
    sectorLoop fuel adj vis s (start :: rest) = sectorLoop fuel adj vis s rest := by
  have hg : start < 0 ∨ start > (MAX_ID : Int) := by
    by_contra hn
    exact h ((not_guard_iff start).1 hn)
  simp only [sectorLoop, hg, if_true]

theorem sectorLoop_filter (fuel : Nat) (adj : Adj) : ∀ (L : List Int) (vis : Visited) (s : Int),
    sectorLoop fuel adj vis s L =
      sectorLoop fuel adj vis s (L.filter (fun v => decide (InRange v))) := by
  intro L
  induction L with
  | nil => intro vis s; rfl
  | cons start rest ih =>
    intro vis s
    by_cases hin : InRange start
    · have hg : ¬ (start < 0 ∨ start > (MAX_ID : Int)) := (not_guard_iff start).2 hin
      simp only [List.filter_cons, hin, decide_True, if_true, sectorLoop, hg, if_false]
      simp only [ih]
    · rw [sectorLoop_skip fuel adj vis s start rest hin, ih vis s]
      simp only [List.filter_cons, hin, decide_False]
      rfl

/-- C5: for every adjacency map and inspection list, IDs outside `[0, MAX_ID]`
are skipped without a fault: one loop iteration on such an ID leaves the
visited marks and the sector counter as they are, and the sector count equals
the count for the list restricted to its in-range IDs. -/
theorem countSectors_skips_out_of_range (fuel : Nat) (adj : Adj) (L : List Int) :
    countSectors fuel adj L = countSectors fuel adj (L.filter (fun v => decide (InRange v))) ∧
      ∀ (vis : Visited) (s start : Int) (rest : List Int), ¬ InRange start →
        sectorLoop fuel adj vis s (start :: rest) = sectorLoop fuel adj vis s rest ∧
        sectorLoop fuel adj vis s [start] = .ok (vis, s) := by
  refine ⟨?_, ?_⟩
  · unfold countSectors
    rw [sectorLoop_filter fuel adj L initVisited 0]
  · intro vis s start rest h
    refine ⟨sectorLoop_skip fuel adj vis s start rest h, ?_⟩
    rw [sectorLoop_skip fuel adj vis s start [] h]
    rfl

theorem countSectors_skips_out_of_range_witness :
    ¬ InRange 1001 ∧
      sectorLoop 1001 scenarioAdj initVisited 0 [1001, 1] =
        sectorLoop 1001 scenarioAdj initVisited 0 [1] ∧
      sectorLoop 1001 scenarioAdj initVisited 0 [1001] = .ok (initVisited, 0) :=
  ⟨by decide,
    (countSectors_skips_out_of_range 1001 scenarioAdj []).2 initVisited 0 1001 [1] (by decide)⟩

/-- C6: for every adjacency map, if the inspection list is empty or all of its
IDs lie outside `[0, MAX_ID]`, the sector count is `0` and so is the number of
drives. -/
theorem countSectors_zero_of_no_inRange (fuel : Nat) (adj : Adj) (L : List Int)
    (h : L = [] ∨ ∀ v ∈ L, ¬ InRange v) :
    countSectors fuel adj L = .ok 0 ∧ drives fuel adj L = .ok 0 := by
  have hall : ∀ v ∈ L, ¬ InRange v := by
    rcases h with rfl | h
    · simp
    · exact h
  have hfilter : L.filter (fun v => decide (InRange v)) = [] := by
    rw [List.filter_eq_nil_iff]
    intro v hv
    simpa using hall v hv
  have hc : countSectors fuel adj L = .ok 0 := by
    unfold countSectors
    rw [sectorLoop_filter fuel adj L initVisited 0, hfilter]
    rfl
  exact ⟨hc, by rw [drives_of_countSectors hc]; rfl⟩

theorem countSectors_zero_of_no_inRange_witness :
    ([-1, 1001] = [] ∨ ∀ v ∈ [-1, 1001], ¬ InRange v) ∧
      (countSectors 1001 scenarioAdj [-1, 1001] = .ok 0 ∧
        drives 1001 scenarioAdj [-1, 1001] = .ok 0) :=
  ⟨Or.inr (by decide),
    countSectors_zero_of_no_inRange 1001 scenarioAdj [-1, 1001] (Or.inr (by decide))⟩

/-! ## Claims about `addEdge` -/

theorem inRange_zero : InRange 0 := by decide

theorem inRange_MAX_ID : InRange (MAX_ID : Int) := by decide

/-- The rows after an accepted `addEdge` on a map with one row per vertex. -/
theorem addEdge_rows (adj : Adj) (hsize : adj.length = MAX_ID + 1) (a b : Int)
    (ha : InRange a) (hb : InRange b) :
    ∃ rowA rowB adj2, readAt adj a = .ok rowA ∧ readAt adj b = .ok rowB ∧
      addEdge adj a b = .ok adj2 ∧ adj2.length = adj.length ∧
      (a ≠ b → readAt adj2 a = .ok (rowA ++ [b]) ∧ readAt adj2 b = .ok (rowB ++ [a])) ∧
      (a = b → readAt adj2 a = .ok (rowA ++ [a, a])) ∧
      (∀ w, w ≠ a → w ≠ b → readAt adj2 w = readAt adj w) := by
  obtain ⟨adj2, h⟩ := addEdge_of_inRange adj hsize a b ha hb
  obtain ⟨rowA, adj1, rowB1, r1, w1, r2, w2⟩ := addEdge_ok_inRange ha hb h
  obtain ⟨b0, b1⟩ := inRange_lt hb hsize
  obtain ⟨rowB, hrowB⟩ := readAt_of_lt adj b0 b1
  refine ⟨rowA, rowB, adj2, r1, hrowB, h, addEdge_length h, ?_, ?_, ?_⟩
  · intro hab
    have hba : b ≠ a := fun e => hab e.symm
    have hB : rowB1 = rowB := by
      rw [readAt_writeAt_ne w1 hba, hrowB] at r2
      injection r2 with e
      exact e.symm
    subst hB
    refine ⟨?_, readAt_writeAt_self w2⟩
    rw [readAt_writeAt_ne w2 hab]
    exact readAt_writeAt_self w1
  · intro hab
    subst hab
    have hB : rowB1 = rowA ++ [a] := by
      rw [readAt_writeAt_self w1] at r2
      injection r2 with e
      exact e.symm
    subst hB
    rw [readAt_writeAt_self w2]
    simp
  · intro w hwa hwb
    rw [readAt_writeAt_ne w2 hwb, readAt_writeAt_ne w1 hwa]

/-- C7: on an adjacency map with one row per vertex and for `a`, `b` in
`[0, MAX_ID]` (bounds included), `addEdge` succeeds, appends `b` at the end of
the row of `a` and `a` at the end of the row of `b`, keeps every other row, and
for `a = b` appends `a` to its own row exactly twice. -/
theorem addEdge_appends (adj : Adj) (hsize : adj.length = MAX_ID + 1) (a b : Int)
    (ha : InRange a) (hb : InRange b) :
    ∃ rowA rowB adj2, readAt adj a = .ok rowA ∧ readAt adj b = .ok rowB ∧
      addEdge adj a b = .ok adj2 ∧ adj2.length = adj.length ∧
      (a ≠ b → readAt adj2 a = .ok (rowA ++ [b]) ∧ readAt adj2 b = .ok (rowB ++ [a])) ∧
      (a = b → readAt adj2 a = .ok (rowA ++ [a, a])) ∧
      (∀ w, w ≠ a → w ≠ b → readAt adj2 w = readAt adj w) :=
  addEdge_rows adj hsize a b ha hb

theorem addEdge_appends_witness :
    emptyAdj.length = MAX_ID + 1 ∧ InRange 0 ∧ InRange (MAX_ID : Int) ∧
      ∃ rowA rowB adj2, readAt emptyAdj 0 = .ok rowA ∧
        readAt emptyAdj (MAX_ID : Int) = .ok rowB ∧
        addEdge emptyAdj 0 (MAX_ID : Int) = .ok adj2 ∧ adj2.length = emptyAdj.length ∧
        ((0 : Int) ≠ (MAX_ID : Int) → readAt adj2 0 = .ok (rowA ++ [(MAX_ID : Int)]) ∧
          readAt adj2 (MAX_ID : Int) = .ok (rowB ++ [0])) ∧
        ((0 : Int) = (MAX_ID : Int) → readAt adj2 0 = .ok (rowA ++ [0, 0])) ∧
        (∀ w, w ≠ 0 → w ≠ (MAX_ID : Int) → readAt adj2 w = readAt emptyAdj w) :=
  ⟨wf_emptyAdj.size, inRange_zero, inRange_MAX_ID,
    addEdge_appends emptyAdj wf_emptyAdj.size 0 (MAX_ID : Int) inRange_zero inRange_MAX_ID⟩

/-- C8: for every adjacency map and every pair in which an endpoint lies outside
`[0, MAX_ID]`, `addEdge` raises no fault and returns the map unchanged. -/
theorem addEdge_drops_out_of_range (adj : Adj) (a b : Int) (h : ¬ InRange a ∨ ¬ InRange b) :
    addEdge adj a b = .ok adj :=
  addEdge_of_not_inRange adj a b (fun hab => h.elim (fun ha => ha hab.1) (fun hb => hb hab.2))

theorem addEdge_drops_out_of_range_witness :
    (¬ InRange 3 ∨ ¬ InRange 1001) ∧ addEdge scenarioAdj 3 1001 = .ok scenarioAdj :=
  ⟨Or.inr (by decide), addEdge_drops_out_of_range scenarioAdj 3 1001 (Or.inr (by decide))⟩

/-- C9: for every built adjacency map and `a`, `b` in `[0, MAX_ID]`,
`addEdge` succeeds and afterwards `a` and `b` reach each other: the sector
count of `[a, b]` and of `[b, a]` is `1`. -/
theorem addEdge_connects (adj : Adj) (hbuilt : Built adj) (a b : Int) (ha : InRange a)
    (hb : InRange b) (fuel : Nat) (hfuel : MAX_ID + 1 ≤ fuel) :
    ∃ adj2, addEdge adj a b = .ok adj2 ∧ Reach adj2 a b ∧ Reach adj2 b a ∧
      countSectors fuel adj2 [a, b] = .ok 1 ∧ countSectors fuel adj2 [b, a] = .ok 1 := by
  have hwf := wf_of_built hbuilt
  obtain ⟨adj2, h⟩ := addEdge_of_inRange adj hwf.size a b ha hb
  have hwf2 := wf_addEdge hwf h
  have hab : Reach adj2 a b :=
    reach_of_edge ((edge_addEdge ha hb h a b).2 (Or.inr (Or.inl ⟨rfl, rfl⟩)))
  have hba : Reach adj2 b a := reach_symm hwf2.symm hab
  refine ⟨adj2, h, hab, hba, ?_, ?_⟩
  · have hsing : touched adj2 [a, b] = {component adj2 a} := by
      refine touched_eq_singleton hwf2.symm (List.mem_cons_self _ _) ha ?_
      intro v hv _
      simp only [List.mem_cons, List.mem_singleton, List.not_mem_nil, or_false] at hv
      rcases hv with rfl | rfl
      · exact Relation.ReflTransGen.refl
      · exact hab
    rw [countSectors_wf hwf2 hfuel, hsing, Set.ncard_singleton]
    rfl
  · have hsing : touched adj2 [b, a] = {component adj2 b} := by
      refine touched_eq_singleton hwf2.symm (List.mem_cons_self _ _) hb ?_
      intro v hv _
      simp only [List.mem_cons, List.mem_singleton, List.not_mem_nil, or_false] at hv
      rcases hv with rfl | rfl
      · exact Relation.ReflTransGen.refl
      · exact hba
    rw [countSectors_wf hwf2 hfuel, hsing, Set.ncard_singleton]
    rfl

theorem addEdge_connects_witness :
    Built scenarioAdj ∧ InRange 2 ∧ InRange 3 ∧ MAX_ID + 1 ≤ 1001 ∧
      ∃ adj2, addEdge scenarioAdj 2 3 = .ok adj2 ∧ Reach adj2 2 3 ∧ Reach adj2 3 2 ∧
        countSectors 1001 adj2 [2, 3] = .ok 1 ∧ countSectors 1001 adj2 [3, 2] = .ok 1 :=
  ⟨built_scenarioAdj, by decide, by decide, fuel_1001,
    addEdge_connects scenarioAdj built_scenarioAdj 2 3 (by decide) (by decide) 1001 fuel_1001⟩

/-! ## Self-loops -/

theorem scanRow_append (row extra : List Int) : ∀ (vis : Visited) (dq : List Int),
    scanRow vis dq (row ++ extra) =
      match scanRow vis dq row with
      | .error e => .error e
      | .ok (vis1, dq1) => scanRow vis1 dq1 extra := by
  induction row with
  | nil => intro vis dq; simp [scanRow]
  | cons v vs ih =>
    intro vis dq
    simp only [List.cons_append, scanRow]
    cases hr : readAt vis v with
    | error e => rfl
    | ok seen =>
      cases seen with
      | true =>
        simp only [Bool.not_true, Bool.false_eq_true, if_false]
        exact ih vis dq
      | false =>
        simp only [Bool.not_false, if_true]
        cases hw : writeAt vis v true with
        | error e => rfl
        | ok vis1 => exact ih vis1 (dq ++ [v])

/-- Marks persist through the neighbour scan, and the queue stays marked. -/
theorem scanRow_marked (row : List Int) : ∀ (vis vis1 : Visited) (dq dq1 : List Int),
    scanRow vis dq row = .ok (vis1, dq1) →
    (∀ x, Marked vis x → Marked vis1 x) ∧
      ((∀ x ∈ dq, Marked vis x) → ∀ x ∈ dq1, Marked vis1 x) := by
  induction row with
  | nil =>
    intro vis vis1 dq dq1 h
    simp only [scanRow] at h
    injection h with h
    injection h with h1 h2
    subst h1
    subst h2
    exact ⟨fun _ hx => hx, fun hx => hx⟩
  | cons v vs ih =>
    intro vis vis1 dq dq1 h
    simp only [scanRow] at h
    cases hr : readAt vis v with
    | error e => simp [hr] at h
    | ok seen =>
      cases seen with
      | true =>
        simp only [hr, Bool.not_true, Bool.false_eq_true, if_false] at h
        exact ih vis vis1 dq dq1 h
      | false =>
        simp only [hr, Bool.not_false, if_true] at h
        cases hw : writeAt vis v true with
        | error e => simp [hw] at h
        | ok visw =>
          simp only [hw] at h
          obtain ⟨k1, k2⟩ := ih visw vis1 (dq ++ [v]) dq1 h
          refine ⟨fun x hx => k1 x ((marked_writeAt hw x).2 (Or.inl hx)), ?_⟩
          intro hdq
          apply k2
          intro x hx
          rw [marked_writeAt hw x]
          rcases List.mem_append.1 hx with hx | hx
          · exact Or.inl (hdq x hx)
          · exact Or.inr (by simpa using hx)

theorem scanRow_marked_pair (a : Int) (vis : Visited) (dq : List Int) (h : Marked vis a) :
    scanRow vis dq [a, a] = .ok (vis, dq) := by
  have hr : readAt vis a = .ok true := h
  simp [scanRow, hr]

/-- Scanning a row extended by two copies of an already marked vertex is the
same as scanning the row. -/
theorem scanRow_selfloop (row : List Int) (a : Int) (vis : Visited) (dq : List Int)
    (h : Marked vis a) : scanRow vis dq (row ++ [a, a]) = scanRow vis dq row := by
  rw [scanRow_append]
  cases hs : scanRow vis dq row with
  | error e => rfl
  | ok p =>
    obtain ⟨vis1, dq1⟩ := p
    exact scanRow_marked_pair a vis1 dq1 ((scanRow_marked row vis vis1 dq dq1 hs).1 a h)

/-- The traversal does not see a self-loop: two maps that differ only in the
row of `a`, by two trailing copies of `a`, give the same traversal. -/
theorem bfsLoop_selfloop (adj adj2 : Adj) (a : Int) (rowA : List Int)
    (hA : readAt adj a = .ok rowA) (hA2 : readAt adj2 a = .ok (rowA ++ [a, a]))
    (hother : ∀ w, w ≠ a → readAt adj2 w = readAt adj w) :
    ∀ (fuel : Nat) (vis : Visited) (dq : List Int), (∀ x ∈ dq, Marked vis x) →
      bfsLoop adj2 fuel vis dq = bfsLoop adj fuel vis dq := by
  intro fuel
  induction fuel with
  | zero =>
    intro vis dq _
    cases dq <;> rfl
  | succ fuel ih =>
    intro vis dq hdq
    cases dq with
    | nil => rfl
    | cons u dq =>
      have hu : Marked vis u := hdq u (List.mem_cons_self _ _)
      have hrest : ∀ x ∈ dq, Marked vis x := fun x hx => hdq x (List.mem_cons_of_mem _ hx)
      have hscan : ∀ row, (match scanRow vis dq row with
          | Except.error e => Except.error e
          | Except.ok (vis1, dq1) => bfsLoop adj2 fuel vis1 dq1) =
          (match scanRow vis dq row with
          | Except.error e => Except.error e
          | Except.ok (vis1, dq1) => bfsLoop adj fuel vis1 dq1) := by
        intro row
        cases hs : scanRow vis dq row with
        | error e => rfl
        | ok p =>
          obtain ⟨vis1, dq1⟩ := p
          exact ih vis1 dq1 ((scanRow_marked row vis vis1 dq dq1 hs).2 hrest)
      by_cases hua : u = a
      · subst hua
        simp only [bfsLoop, hA, hA2, scanRow_selfloop rowA u vis dq hu]
        exact hscan rowA
      · simp only [bfsLoop, hother u hua]
        cases hr : readAt adj u with
        | error e => rfl
        | ok row => exact hscan row

theorem sectorLoop_selfloop (adj adj2 : Adj) (a : Int) (rowA : List Int)
    (hA : readAt adj a = .ok rowA) (hA2 : readAt adj2 a = .ok (rowA ++ [a, a]))
    (hother : ∀ w, w ≠ a → readAt adj2 w = readAt adj w) (fuel : Nat) :
    ∀ (L : List Int) (vis : Visited) (s : Int),
      sectorLoop fuel adj2 vis s L = sectorLoop fuel adj vis s L := by
  intro L
  induction L with
  | nil => intro vis s; rfl
  | cons start rest ih =>
    intro vis s
    simp only [sectorLoop, ih]
    split
    · rfl
    · cases hr : readAt vis start with
      | error e => rfl
      | ok seen =>
        cases seen with
        | true => rfl
        | false =>
          simp only [Bool.false_eq_true, if_false]
          cases hw : writeAt vis start true with
          | error e => rfl
          | ok vis1 =>
            have hm : ∀ x ∈ [start], Marked vis1 x := by
              intro x hx
              rw [List.mem_singleton] at hx
              subst hx
              exact readAt_writeAt_self hw
            simp only [bfsLoop_selfloop adj adj2 a rowA hA hA2 hother fuel vis1 [start] hm]

/-- C10: adding a self-loop changes no sector count: on every adjacency map
with one row per vertex, `addEdge` on the pair `(a, a)` succeeds, and the
resulting map gives, for every inspection list and every amount of fuel, the
same outcome of the counting pass as the map before. -/
theorem addEdge_selfloop_countSectors (adj : Adj) (hsize : adj.length = MAX_ID + 1) (a : Int) :
    ∃ adj2, addEdge adj a a = .ok adj2 ∧
      ∀ (fuel : Nat) (L : List Int), countSectors fuel adj2 L = countSectors fuel adj L := by
  by_cases ha : InRange a
  · obtain ⟨rowA, rowB, adj2, r1, -, h, -, -, h2, h3⟩ := addEdge_rows adj hsize a a ha ha
    refine ⟨adj2, h, ?_⟩
    intro fuel L
    unfold countSectors
    rw [sectorLoop_selfloop adj adj2 a rowA r1 (h2 rfl) (fun w hw => h3 w hw hw) fuel L
      initVisited 0]
  · exact ⟨adj, addEdge_of_not_inRange adj a a (fun h => ha h.1), fun _ _ => rfl⟩

theorem addEdge_selfloop_countSectors_witness :
    scenarioAdj.length = MAX_ID + 1 ∧
      ∃ adj2, addEdge scenarioAdj 3 3 = .ok adj2 ∧
        ∀ (fuel : Nat) (L : List Int),
          countSectors fuel adj2 L = countSectors fuel scenarioAdj L :=
  ⟨(wf_of_built built_scenarioAdj).size,
    addEdge_selfloop_countSectors scenarioAdj (wf_of_built built_scenarioAdj).size 3⟩

set_option maxRecDepth 100000 in
theorem recordLoop_scenario_eval :
    recordLoop tokenOps 3 5 0 scenarioInput emptyAdj = .ok scenarioAdj := by
  decide

/-! ## The record loop -/

theorem meaningful_cons_empty (l : String) (ls : List String) (h : l.isEmpty = true) :
    meaningful (l :: ls) = meaningful ls := by
  simp [meaningful, List.filter_cons, h]

theorem meaningful_cons_nonempty (l : String) (ls : List String) (h : l.isEmpty = false) :
    meaningful (l :: ls) = l :: meaningful ls := by
  simp [meaningful, List.filter_cons, h]

theorem meaningful_idem (input : List String) : meaningful (meaningful input) = meaningful input := by
  simp [meaningful]

theorem meaningful_length_le (input : List String) :
    (meaningful input).length ≤ input.length :=
  List.length_filter_le _ _

theorem recordLoop_done {σ : Type} (ops : StreamOps σ) (B : Int) (fuel : Nat) (i : Int)
    (input : List String) (adj : Adj) (h : ¬ i < B) :
    recordLoop ops B fuel i input adj = .ok adj := by
  cases fuel <;> simp [recordLoop, h]

/-- With at least `B - i` non-empty lines ahead and a unit of fuel per line, the
record loop reads exactly the next `B - i` non-empty lines. -/
theorem recordLoop_eq_readRecords {σ : Type} (ops : StreamOps σ) (B : Int) :
    ∀ (input : List String) (fuel : Nat) (i : Int) (adj : Adj),
      B - i ≤ ((meaningful input).length : Int) → input.length ≤ fuel →
      recordLoop ops B fuel i input adj =
        readRecords ops ((meaningful input).take (B - i).toNat) adj := by
  intro input
  induction input with
  | nil =>
    intro fuel i adj hn _
    have hi : ¬ i < B := by
      simp only [meaningful, List.filter_nil, List.length_nil, Nat.cast_zero] at hn
      omega
    rw [recordLoop_done ops B fuel i [] adj hi]
    simp [meaningful, readRecords]
  | cons l ls ih =>
    intro fuel i adj hn hfuel
    by_cases hi : i < B
    · cases fuel with
      | zero => simp at hfuel
      | succ fuel =>
        have hfuel1 : ls.length ≤ fuel := by
          simp only [List.length_cons] at hfuel
          omega
        cases hl : l.isEmpty with
        | true =>
          rw [meaningful_cons_empty l ls hl] at hn ⊢
          have hstep : recordLoop ops B (fuel + 1) i (l :: ls) adj =
              recordLoop ops B fuel (i - 1 + 1) ls adj := by
            simp [recordLoop, hi, getline, hl]
          rw [hstep]
          have hii : i - 1 + 1 = i := by omega
          rw [hii]
          exact ih fuel i adj hn hfuel1
        | false =>
          rw [meaningful_cons_nonempty l ls hl] at hn ⊢
          have hpos : (B - i).toNat = (B - (i + 1)).toNat + 1 := by omega
          rw [hpos, List.take_succ_cons]
          have hn1 : B - (i + 1) ≤ ((meaningful ls).length : Int) := by
            simp only [List.length_cons, Nat.cast_add, Nat.cast_one] at hn
            omega
          simp only [recordLoop, hi, if_true, getline, hl, Bool.false_eq_true, if_false,
            readRecords]
          cases hr : readRecord ops l adj with
          | error e => rfl
          | ok adj1 => exact ih fuel (i + 1) adj1 hn1 hfuel1
    · rw [recordLoop_done ops B fuel i (l :: ls) adj hi]
      have h0 : (B - i).toNat = 0 := by omega
      rw [h0]
      simp [readRecords]

/-- Handling one neighbour on a well-formed map keeps the map well formed and
built, unless a variable that no extraction wrote is read. -/
theorem insertRead_wf {adj : Adj} (hwf : WF adj) (id nb : Option Int) :
    (∃ adj2, insertRead adj id nb = .ok adj2 ∧ WF adj2 ∧ (Built adj → Built adj2)) ∨
      insertRead adj id nb = .error .indeterminate := by
  cases id with
  | none => exact Or.inr rfl
  | some i =>
    by_cases hi : i ≥ 0 ∧ i ≤ (MAX_ID : Int)
    · cases nb with
      | none =>
        right
        simp only [insertRead, hi, and_self, if_true]
      | some n =>
        left
        obtain ⟨adj2, h⟩ : ∃ adj2, addEdge adj i n = .ok adj2 := by
          by_cases hr : InRange i ∧ InRange n
          · exact addEdge_of_inRange adj hwf.size i n hr.1 hr.2
          · exact ⟨adj, addEdge_of_not_inRange adj i n hr⟩
        refine ⟨adj2, ?_, wf_addEdge hwf h, fun hb => built_addEdge hb h⟩
        simp only [insertRead, hi, and_self, if_true, h]
    · left
      refine ⟨adj, ?_, hwf, fun hb => hb⟩
      simp only [insertRead, hi, if_false]

theorem neighbourLoop_wf {σ : Type} (ops : StreamOps σ) (id : Option Int) :
    ∀ (n : Nat) (ss : σ) (adj : Adj), WF adj →
      (∃ adj2, neighbourLoop ops id n ss adj = .ok adj2 ∧ WF adj2 ∧ (Built adj → Built adj2)) ∨
        neighbourLoop ops id n ss adj = .error .indeterminate := by
  intro n
  induction n with
  | zero =>
    intro ss adj hwf
    exact Or.inl ⟨adj, rfl, hwf, fun h => h⟩
  | succ n ih =>
    intro ss adj hwf
    rcases insertRead_wf hwf id (ops.extract ss).2 with ⟨adj1, h1, hwf1, hb1⟩ | h1
    · rcases ih (ops.extract ss).1 adj1 hwf1 with ⟨adj2, h2, hwf2, hb2⟩ | h2
      · left
        refine ⟨adj2, ?_, hwf2, fun hb => hb2 (hb1 hb)⟩
        simp only [neighbourLoop, h1, h2]
      · right
        simp only [neighbourLoop, h1, h2]
    · right
      simp only [neighbourLoop, h1]

/-- Reading a record into a well-formed map keeps it well formed and built,
unless a variable that no extraction wrote is read. -/
theorem readRecord_wf {σ : Type} (ops : StreamOps σ) (l : String) {adj : Adj} (hwf : WF adj) :
    (∃ adj2, readRecord ops l adj = .ok adj2 ∧ WF adj2 ∧ (Built adj → Built adj2)) ∨
      readRecord ops l adj = .error .indeterminate := by
  unfold readRecord
  cases hdeg : (ops.extract (ops.extract (ops.init l)).1).2 with
  | none =>
    right
    simp only [hdeg]
  | some deg =>
    simp only [hdeg]
    exact neighbourLoop_wf ops _ _ _ adj hwf

theorem readRecords_wf {σ : Type} (ops : StreamOps σ) :
    ∀ (ls : List String) (adj : Adj), WF adj →
      (∃ adj2, readRecords ops ls adj = .ok adj2 ∧ WF adj2 ∧ (Built adj → Built adj2)) ∨
        readRecords ops ls adj = .error .indeterminate := by
  intro ls
  induction ls with
  | nil =>
    intro adj hwf
    exact Or.inl ⟨adj, rfl, hwf, fun h => h⟩
  | cons l ls ih =>
    intro adj hwf
    rcases readRecord_wf ops l hwf with ⟨adj1, h1, hwf1, hb1⟩ | h1
    · rcases ih adj1 hwf1 with ⟨adj2, h2, hwf2, hb2⟩ | h2
      · left
        refine ⟨adj2, ?_, hwf2, fun hb => hb2 (hb1 hb)⟩
        simp only [readRecords, h1, h2]
      · right
        simp only [readRecords, h1, h2]
    · right
      simp only [readRecords, h1]

/-- When every line can be read as a record, reading them all returns a map. -/
theorem readRecords_ok {σ : Type} (ops : StreamOps σ) :
    ∀ (ls : List String),
      (∀ l ∈ ls, ∀ adj, WF adj → ∃ adj2, readRecord ops l adj = .ok adj2) →
      ∀ adj, WF adj →
        ∃ adj2, readRecords ops ls adj = .ok adj2 ∧ WF adj2 ∧ (Built adj → Built adj2) := by
  intro ls
  induction ls with
  | nil =>
    intro _ adj hwf
    exact ⟨adj, rfl, hwf, fun h => h⟩
  | cons l ls ih =>
    intro hok adj hwf
    obtain ⟨adj1, h1⟩ := hok l (List.mem_cons_self _ _) adj hwf
    rcases readRecord_wf ops l hwf with ⟨adj1b, h1b, hwf1, hb1⟩ | h1b
    · rw [h1] at h1b
      injection h1b with e
      subst e
      obtain ⟨adj2, h2, hwf2, hb2⟩ :=
        ih (fun l2 hl2 => hok l2 (List.mem_cons_of_mem _ hl2)) adj1 hwf1
      refine ⟨adj2, ?_, hwf2, fun hb => hb2 (hb1 hb)⟩
      simp only [readRecords, h1, h2]
    · rw [h1] at h1b
      cases h1b

set_option maxRecDepth 100000 in
theorem recordLoop_blank_eval :
    recordLoop tokenOps 1 2 0 [" ", "1 1 5"] emptyAdj = .error .indeterminate := by
  decide

set_option maxRecDepth 100000 in
theorem recordLoop_nonBlank_eval :
    recordLoop tokenOps 1 2 0 (nonBlank [" ", "1 1 5"]) emptyAdj =
      .ok ((emptyAdj.set 1 [5]).set 5 [1]) := by
  decide

set_option maxRecDepth 100000 in
theorem recordLoop_carriage_return_eval :
    recordLoop tokenOps 1 2 0 ["\r", "1 1 5\r"] emptyAdj = .error .indeterminate ∧
      recordLoop tokenOps 1 2 0 (nonBlank ["\r", "1 1 5\r"]) emptyAdj =
        .ok ((emptyAdj.set 1 [5]).set 5 [1]) := by
  decide

/-- C11 as stated fails: with `B = 1` and the input made of a line that holds a
single blank followed by the record `1 1 5`, the blank line is not empty, so it
takes the only record slot; the loop reads `id` and `deg` from it (they stay
unwritten) and never reads the record, whereas on the input with the blank line
removed it builds the map with the edge 1-5. -/
theorem recordLoop_blank_line_takes_slot :
    nonBlank [" ", "1 1 5"] = ["1 1 5"] ∧
      recordLoop tokenOps 1 2 0 [" ", "1 1 5"] emptyAdj = .error .indeterminate ∧
      recordLoop tokenOps 1 2 0 (nonBlank [" ", "1 1 5"]) emptyAdj =
        .ok ((emptyAdj.set 1 [5]).set 5 [1]) ∧
      recordLoop tokenOps 1 2 0 [" ", "1 1 5"] emptyAdj ≠
        recordLoop tokenOps 1 2 0 (nonBlank [" ", "1 1 5"]) emptyAdj := by
  refine ⟨by decide, recordLoop_blank_eval, recordLoop_nonBlank_eval, ?_⟩
  rw [recordLoop_blank_eval, recordLoop_nonBlank_eval]
  simp

/-- C11, amended: for every declared record count `B` and every input whose
non-empty lines number `B`, with empty lines (lines without any character)
anywhere among them, the record loop (with a unit of fuel per line) skips the
empty lines without using up a record slot: its outcome is the outcome of
reading exactly the `B` non-empty lines as records, which is also its outcome
for the input with the empty lines removed.  That outcome is a built map
unless a record makes the code read a variable that no extraction wrote, and
it is a built map whenever every non-empty line can be read as a record. -/
theorem recordLoop_skips_empty_lines {σ : Type} (ops : StreamOps σ) (B : Int)
    (input : List String) (fuel : Nat) (hB : ((meaningful input).length : Int) = B)
    (hfuel : input.length ≤ fuel) :
    recordLoop ops B fuel 0 input emptyAdj = readRecords ops (meaningful input) emptyAdj ∧
      recordLoop ops B fuel 0 (meaningful input) emptyAdj =
        recordLoop ops B fuel 0 input emptyAdj ∧
      ((∃ adj, recordLoop ops B fuel 0 input emptyAdj = .ok adj ∧ Built adj) ∨
        recordLoop ops B fuel 0 input emptyAdj = .error .indeterminate) ∧
      ((∀ l ∈ meaningful input, ∀ adj, WF adj → ∃ adj2, readRecord ops l adj = .ok adj2) →
        ∃ adj, recordLoop ops B fuel 0 input emptyAdj = .ok adj ∧ Built adj) := by
  have htake : (meaningful input).take (B - 0).toNat = meaningful input := by
    rw [← hB]
    simp
  have e1 := recordLoop_eq_readRecords ops B input fuel 0 emptyAdj (by omega) hfuel
  have e2 := recordLoop_eq_readRecords ops B (meaningful input) fuel 0 emptyAdj
    (by rw [meaningful_idem]; omega) ((meaningful_length_le input).trans hfuel)
  rw [htake] at e1
  rw [meaningful_idem, htake] at e2
  refine ⟨e1, e2.trans e1.symm, ?_, ?_⟩
  · rw [e1]
    rcases readRecords_wf ops (meaningful input) emptyAdj wf_emptyAdj with ⟨adj, h, -, hb⟩ | h
    · exact Or.inl ⟨adj, h, hb ⟨[], rfl⟩⟩
    · exact Or.inr h
  · intro hok
    rw [e1]
    obtain ⟨adj, h, -, hb⟩ := readRecords_ok ops (meaningful input) hok emptyAdj wf_emptyAdj
    exact ⟨adj, h, hb ⟨[], rfl⟩⟩

theorem recordLoop_skips_empty_lines_witness :
    ((meaningful scenarioInput).length : Int) = 3 ∧ scenarioInput.length ≤ 5 ∧
      recordLoop tokenOps 3 5 0 scenarioInput emptyAdj = .ok scenarioAdj ∧
      (recordLoop tokenOps 3 5 0 scenarioInput emptyAdj =
          readRecords tokenOps (meaningful scenarioInput) emptyAdj ∧
        recordLoop tokenOps 3 5 0 (meaningful scenarioInput) emptyAdj =
          recordLoop tokenOps 3 5 0 scenarioInput emptyAdj ∧
        ((∃ adj, recordLoop tokenOps 3 5 0 scenarioInput emptyAdj = .ok adj ∧ Built adj) ∨
          recordLoop tokenOps 3 5 0 scenarioInput emptyAdj = .error .indeterminate) ∧
        ((∀ l ∈ meaningful scenarioInput, ∀ adj, WF adj →
            ∃ adj2, readRecord tokenOps l adj = .ok adj2) →
          ∃ adj, recordLoop tokenOps 3 5 0 scenarioInput emptyAdj = .ok adj ∧ Built adj)) :=
  ⟨by decide, by decide, recordLoop_scenario_eval,
    recordLoop_skips_empty_lines tokenOps 3 scenarioInput 5 (by decide) (by decide)⟩

/-- At the end of the input `getline` leaves the line empty, the loop counter is
put back, and the loop goes on: no amount of fuel lets it finish. -/
theorem recordLoop_at_end {σ : Type} (ops : StreamOps σ) (B : Int) :
    ∀ (fuel : Nat) (i : Int) (adj : Adj), i < B →
      recordLoop ops B fuel i [] adj = .error .outOfFuel := by
  intro fuel
  induction fuel with
  | zero =>
    intro i adj hi
    simp [recordLoop, hi]
  | succ fuel ih =>
    intro i adj hi
    have he : "".isEmpty = true := by decide
    have hstep : recordLoop ops B (fuel + 1) i [] adj =
        recordLoop ops B fuel (i - 1 + 1) [] adj := by
      simp only [recordLoop, hi, if_true, getline, he]
    rw [hstep]
    exact ih (i - 1 + 1) adj (by omega)

/-- An input of empty lines only never lets the record loop finish while a
record is still to be read. -/
theorem recordLoop_all_empty {σ : Type} (ops : StreamOps σ) (B : Int) :
    ∀ (input : List String) (fuel : Nat) (i : Int) (adj : Adj),
      (∀ l ∈ input, l.isEmpty = true) → i < B →
      recordLoop ops B fuel i input adj = .error .outOfFuel := by
  intro input
  induction input with
  | nil =>
    intro fuel i adj _ hi
    exact recordLoop_at_end ops B fuel i adj hi
  | cons l ls ih =>
    intro fuel i adj hall hi
    cases fuel with
    | zero => simp [recordLoop, hi]
    | succ fuel =>
      have hl : l.isEmpty = true := hall l (List.mem_cons_self _ _)
      have hstep : recordLoop ops B (fuel + 1) i (l :: ls) adj =
          recordLoop ops B fuel (i - 1 + 1) ls adj := by
        simp only [recordLoop, hi, if_true, getline, hl]
      rw [hstep]
      exact ih fuel (i - 1 + 1) adj (fun l2 hl2 => hall l2 (List.mem_cons_of_mem _ hl2))
        (by omega)

/-- On a well-formed map, an input with fewer non-empty lines than the records
still to read never lets the record loop return a map: it runs out of every
amount of fuel, unless a record makes it read an unwritten variable first. -/
theorem recordLoop_short_input {σ : Type} (ops : StreamOps σ) (B : Int) :
    ∀ (input : List String) (fuel : Nat) (i : Int) (adj : Adj), WF adj →
      ((meaningful input).length : Int) < B - i →
      recordLoop ops B fuel i input adj = .error .outOfFuel ∨
        recordLoop ops B fuel i input adj = .error .indeterminate := by
  intro input
  induction input with
  | nil =>
    intro fuel i adj _ hn
    simp only [meaningful, List.filter_nil, List.length_nil, Nat.cast_zero] at hn
    exact Or.inl (recordLoop_at_end ops B fuel i adj (by omega))
  | cons l ls ih =>
    intro fuel i adj hwf hn
    have hi : i < B := by
      have := Int.natCast_nonneg (meaningful (l :: ls)).length
      omega
    cases fuel with
    | zero =>
      left
      simp [recordLoop, hi]
    | succ fuel =>
      cases hl : l.isEmpty with
      | true =>
        rw [meaningful_cons_empty l ls hl] at hn
        have hstep : recordLoop ops B (fuel + 1) i (l :: ls) adj =
            recordLoop ops B fuel (i - 1 + 1) ls adj := by
          simp [recordLoop, hi, getline, hl]
        rw [hstep]
        exact ih fuel (i - 1 + 1) adj hwf (by omega)
      | false =>
        rw [meaningful_cons_nonempty l ls hl] at hn
        simp only [List.length_cons, Nat.cast_add, Nat.cast_one] at hn
        rcases readRecord_wf ops l hwf with ⟨adj1, h1, hwf1, -⟩ | h1
        · simp only [recordLoop, hi, if_true, getline, hl, Bool.false_eq_true, if_false, h1]
          exact ih fuel (i + 1) adj1 hwf1 (by omega)
        · right
          simp only [recordLoop, hi, if_true, getline, hl, Bool.false_eq_true, if_false, h1]

/-- C17: the record loop does not terminate on an input that ends before `B`
non-empty records were read.  With `B = 1` and an input that holds only the
rest of the header line, or nothing at all, the loop runs out of every amount
of fuel: `getline` keeps yielding the empty line and `--i` undoes `++i`. -/
theorem recordLoop_truncated_input {σ : Type} (ops : StreamOps σ) (fuel : Nat) :
    recordLoop ops 1 fuel 0 [""] emptyAdj = .error .outOfFuel ∧
      recordLoop ops 1 fuel 0 [] emptyAdj = .error .outOfFuel :=
  ⟨recordLoop_all_empty ops 1 [""] fuel 0 emptyAdj (by decide) (by decide),
    recordLoop_at_end ops 1 fuel 0 emptyAdj (by decide)⟩

/-! ## Symmetry of the built map -/

/-- The row of `w` after an accepted `addEdge`. -/
theorem readAt_addEdge {adj adj2 : Adj} {a b : Int} (ha : InRange a) (hb : InRange b)
    (h : addEdge adj a b = .ok adj2) (w : Int) (row : List Int) (hrow : readAt adj w = .ok row) :
    readAt adj2 w =
      .ok (row ++ (if w = a then [b] else []) ++ (if w = b then [a] else [])) := by
  obtain ⟨rowA, adj1, rowB, r1, w1, r2, w2⟩ := addEdge_ok_inRange ha hb h
  have h1 : readAt adj1 w = .ok (row ++ (if w = a then [b] else [])) := by
    by_cases hwa : w = a
    · subst hwa
      rw [readAt_writeAt_self w1]
      rw [hrow] at r1
      injection r1 with e
      simp [e]
    · rw [readAt_writeAt_ne w1 hwa, hrow]
      simp [hwa]
  by_cases hwb : w = b
  · subst hwb
    rw [readAt_writeAt_self w2]
    rw [h1] at r2
    injection r2 with e
    simp [← e]
  · rw [readAt_writeAt_ne w2 hwb, h1]
    simp [hwb]

theorem readAt_of_addEdge {adj adj2 : Adj} {a b : Int} (h : addEdge adj a b = .ok adj2)
    {w : Int} {row2 : List Int} (hrow : readAt adj2 w = .ok row2) :
    ∃ row, readAt adj w = .ok row := by
  obtain ⟨h0, h1⟩ := readAt_ok_lt hrow
  rw [addEdge_length h] at h1
  exact readAt_of_lt adj h0 h1

theorem symmCount_emptyAdj : SymmCount emptyAdj := by
  intro u v rowU rowV _ hu hv
  have hnil : ∀ (w : Int) (row : List Int), readAt emptyAdj w = .ok row → row = [] := by
    intro w row hw
    obtain ⟨-, h⟩ := (readAt_ok_iff _ _ _).1 hw
    rw [emptyAdj, List.getElem?_replicate] at h
    split at h
    · injection h with e
      exact e.symm
    · simp at h
  rw [hnil u rowU hu, hnil v rowV hv]
  rfl

theorem symmCount_addEdge {adj adj2 : Adj} {a b : Int} (hs : SymmCount adj)
    (h : addEdge adj a b = .ok adj2) : SymmCount adj2 := by
  by_cases hr : InRange a ∧ InRange b
  · obtain ⟨ha, hb⟩ := hr
    intro u v rowU2 rowV2 huv hu hv
    obtain ⟨rowU, hU⟩ := readAt_of_addEdge h hu
    obtain ⟨rowV, hV⟩ := readAt_of_addEdge h hv
    have e := hs u v rowU rowV huv hU hV
    rw [readAt_addEdge ha hb h u rowU hU] at hu
    rw [readAt_addEdge ha hb h v rowV hV] at hv
    injection hu with hu
    injection hv with hv
    subst hu
    subst hv
    simp only [List.count_append, e]
    by_cases hua : u = a <;> by_cases hub : u = b <;> by_cases hva : v = a <;>
      by_cases hvb : v = b <;>
      simp_all [List.count_cons, List.count_nil]
  · rw [addEdge_of_not_inRange adj a b hr] at h
    cases h
    exact hs

theorem symmCount_addEdges (es : List (Int × Int)) : ∀ {adj adj2 : Adj}, SymmCount adj →
    addEdges adj es = .ok adj2 → SymmCount adj2 := by
  induction es with
  | nil =>
    intro adj adj2 hs h
    simp only [addEdges] at h
    cases h
    exact hs
  | cons e es ih =>
    intro adj adj2 hs h
    simp only [addEdges] at h
    cases h1 : addEdge adj e.1 e.2 with
    | error err => simp [h1] at h
    | ok adj1 =>
      simp only [h1] at h
      exact ih (symmCount_addEdge hs h1) h

/-- C12: every adjacency map produced by the graph builder is symmetric: for
distinct `u` and `v` the row of `u` holds `v` as often as the row of `v` holds
`u`, so `v` is a neighbour of `u` iff `u` is a neighbour of `v`.  The property
holds for the empty map and is kept by every `addEdge` call that returns,
accepted or dropped; on a built map every `addEdge` call returns. -/
theorem built_symmCount (adj : Adj) (hb : Built adj) :
    SymmCount adj ∧ (∀ u v : Int, Edge adj u v ↔ Edge adj v u) ∧ SymmCount emptyAdj ∧
      (∀ (g g2 : Adj) (a b : Int), SymmCount g → addEdge g a b = .ok g2 → SymmCount g2) ∧
      (∀ a b : Int, ∃ adj2, addEdge adj a b = .ok adj2 ∧ SymmCount adj2) := by
  have hwf := wf_of_built hb
  have hs : SymmCount adj := by
    obtain ⟨es, hes⟩ := hb
    exact symmCount_addEdges es symmCount_emptyAdj hes
  refine ⟨hs, fun u v => ⟨hwf.symm u v, hwf.symm v u⟩, symmCount_emptyAdj,
    fun g g2 a b hg h => symmCount_addEdge hg h, ?_⟩
  intro a b
  obtain ⟨adj2, h2⟩ : ∃ adj2, addEdge adj a b = .ok adj2 := by
    by_cases hr : InRange a ∧ InRange b
    · exact addEdge_of_inRange adj hwf.size a b hr.1 hr.2
    · exact ⟨adj, addEdge_of_not_inRange adj a b hr⟩
  exact ⟨adj2, h2, symmCount_addEdge hs h2⟩

theorem built_symmCount_witness :
    Built scenarioAdj ∧
      (SymmCount scenarioAdj ∧ (∀ u v : Int, Edge scenarioAdj u v ↔ Edge scenarioAdj v u) ∧
        SymmCount emptyAdj ∧
        (∀ (g g2 : Adj) (a b : Int), SymmCount g → addEdge g a b = .ok g2 → SymmCount g2) ∧
        (∀ a b : Int, ∃ adj2, addEdge scenarioAdj a b = .ok adj2 ∧ SymmCount adj2)) :=
  ⟨built_scenarioAdj, built_symmCount scenarioAdj built_scenarioAdj⟩

/-! ## Bounds of the subscripts -/

theorem readAt_of_mem {α : Type} {xs : List α} {x : α} (h : x ∈ xs) :
    ∃ u : Int, readAt xs u = .ok x := by
  obtain ⟨n, hn, rfl⟩ := List.mem_iff_getElem.1 h
  refine ⟨(n : Int), (readAt_ok_iff xs _ _).2 ⟨Int.natCast_nonneg n, ?_⟩⟩
  simp [List.getElem?_eq_getElem hn]

theorem readAt_addEdge_other {adj adj2 : Adj} {a b : Int} (h : addEdge adj a b = .ok adj2)
    {w : Int} (hwa : w ≠ a) (hwb : w ≠ b) : readAt adj2 w = readAt adj w := by
  by_cases hr : InRange a ∧ InRange b
  · obtain ⟨rowA, adj1, rowB, -, w1, -, w2⟩ := addEdge_ok_inRange hr.1 hr.2 h
    rw [readAt_writeAt_ne w2 hwb, readAt_writeAt_ne w1 hwa]
  · rw [addEdge_of_not_inRange adj a b hr] at h
    cases h
    rfl

theorem readAt_addEdges_other (es : List (Int × Int)) (w : Int)
    (hw : ∀ e ∈ es, e.1 ≠ w ∧ e.2 ≠ w) : ∀ {adj adj2 : Adj},
    addEdges adj es = .ok adj2 → readAt adj2 w = readAt adj w := by
  induction es with
  | nil =>
    intro adj adj2 h
    simp only [addEdges] at h
    cases h
    rfl
  | cons e es ih =>
    intro adj adj2 h
    simp only [addEdges] at h
    cases h1 : addEdge adj e.1 e.2 with
    | error err => simp [h1] at h
    | ok adj1 =>
      simp only [h1] at h
      obtain ⟨ha, hb⟩ := hw e (List.mem_cons_self _ _)
      rw [ih (fun e2 he2 => hw e2 (List.mem_cons_of_mem _ he2)) h,
        readAt_addEdge_other h1 (Ne.symm ha) (Ne.symm hb)]

theorem readAt_emptyAdj {w : Int} (hw : InRange w) : readAt emptyAdj w = .ok [] := by
  obtain ⟨h0, h1⟩ := inRange_lt hw wf_emptyAdj.size
  obtain ⟨row, hrow⟩ := readAt_of_lt emptyAdj h0 h1
  rw [hrow]
  obtain ⟨-, h⟩ := (readAt_ok_iff _ _ _).1 hrow
  rw [emptyAdj, List.getElem?_replicate] at h
  split at h
  · injection h with e
    rw [e]
  · simp at h

/-- Whatever the fuel, the traversal of a map with in-range rows does not leave
the bounds of `adj` and `visited`: it stops for lack of fuel or succeeds. -/
theorem bfsLoop_in_bounds (adj : Adj) (hsize : adj.length = MAX_ID + 1)
    (hR : ∀ u v, Edge adj u v → InRange v) :
    ∀ (fuel : Nat) (vis : Visited) (dq : List Int),
      vis.length = MAX_ID + 1 → (∀ x ∈ dq, InRange x) →
      bfsLoop adj fuel vis dq = .error .outOfFuel ∨
        ∃ vis2, bfsLoop adj fuel vis dq = .ok vis2 ∧ vis2.length = MAX_ID + 1 := by
  intro fuel
  induction fuel with
  | zero =>
    intro vis dq hlen _
    cases dq with
    | nil => exact Or.inr ⟨vis, rfl, hlen⟩
    | cons u dq => exact Or.inl rfl
  | succ fuel ih =>
    intro vis dq hlen hdq
    cases dq with
    | nil => exact Or.inr ⟨vis, rfl, hlen⟩
    | cons u dq =>
      obtain ⟨hu0, hu1⟩ := inRange_lt (hdq u (List.mem_cons_self _ _)) hsize
      obtain ⟨row, hrow⟩ := readAt_of_lt adj hu0 hu1
      have hb : ∀ v ∈ row, 0 ≤ v ∧ v.toNat < vis.length :=
        fun v hv => inRange_lt (hR u v ⟨row, hrow, hv⟩) hlen
      obtain ⟨vis1, new, h1, h2, -, h4, -⟩ := scanRow_spec row vis dq hb
      have hdq1 : ∀ x ∈ dq ++ new, InRange x := by
        intro x hx
        rcases List.mem_append.1 hx with hx | hx
        · exact hdq x (List.mem_cons_of_mem _ hx)
        · exact hR u x ⟨row, hrow, ((h4 x).1 hx).1⟩
      have hstep : bfsLoop adj (fuel + 1) vis (u :: dq) = bfsLoop adj fuel vis1 (dq ++ new) := by
        simp only [bfsLoop, hrow, h1]
      rw [hstep]
      exact ih vis1 (dq ++ new) (h2.trans hlen) hdq1

theorem sectorLoop_in_bounds (adj : Adj) (hsize : adj.length = MAX_ID + 1)
    (hR : ∀ u v, Edge adj u v → InRange v) (fuel : Nat) :
    ∀ (L : List Int) (vis : Visited) (s : Int), vis.length = MAX_ID + 1 →
      sectorLoop fuel adj vis s L = .error .outOfFuel ∨
        ∃ vis2 s2, sectorLoop fuel adj vis s L = .ok (vis2, s2) ∧
          vis2.length = MAX_ID + 1 := by
  intro L
  induction L with
  | nil =>
    intro vis s hlen
    exact Or.inr ⟨vis, s, rfl, hlen⟩
  | cons start rest ih =>
    intro vis s hlen
    by_cases hg : start < 0 ∨ start > (MAX_ID : Int)
    · have hstep : sectorLoop fuel adj vis s (start :: rest) = sectorLoop fuel adj vis s rest := by
        simp only [sectorLoop, hg, if_true]
      rw [hstep]
      exact ih vis s hlen
    · have hin : InRange start := (not_guard_iff start).1 hg
      obtain ⟨hs0, hs1⟩ := inRange_lt hin hlen
      obtain ⟨seen, hseen⟩ := readAt_of_lt vis hs0 hs1
      cases seen with
      | true =>
        have hstep : sectorLoop fuel adj vis s (start :: rest) =
            sectorLoop fuel adj vis s rest := by
          simp only [sectorLoop, hg, if_false, hseen, if_true]
        rw [hstep]
        exact ih vis s hlen
      | false =>
        have hw : writeAt vis start true = .ok (vis.set start.toNat true) :=
          writeAt_of_lt true hs0 hs1
        have hlen1 : (vis.set start.toNat true).length = MAX_ID + 1 := by
          rw [List.length_set]
          exact hlen
        rcases bfsLoop_in_bounds adj hsize hR fuel _ [start] hlen1
            (by simpa using hin) with hb | ⟨vis2, hb, hlen2⟩
        · left
          simp only [sectorLoop, hg, if_false, hseen, hw, hb, Bool.false_eq_true]
        · have hstep : sectorLoop fuel adj vis s (start :: rest) =
              sectorLoop fuel adj vis2 (s + 1) rest := by
            simp only [sectorLoop, hg, if_false, hseen, hw, hb, Bool.false_eq_true]
          rw [hstep]
          exact ih vis2 (s + 1) hlen2

/-- C13: for every sequence of `addEdge` calls the graph builder returns a map
with exactly `MAX_ID + 1` rows whose stored IDs all lie in `[0, MAX_ID]`, with
the empty row for every vertex that no call names; on that map the counting
pass never takes the out-of-bounds branch, whatever the inspection list and
the fuel, and with enough fuel it returns a count. -/
theorem built_in_bounds (es : List (Int × Int)) :
    ∃ adj, addEdges emptyAdj es = .ok adj ∧ adj.length = MAX_ID + 1 ∧
      (∀ row ∈ adj, ∀ v ∈ row, InRange v) ∧
      (∀ w, InRange w → (∀ e ∈ es, e.1 ≠ w ∧ e.2 ≠ w) → readAt adj w = .ok []) ∧
      ∀ (L : List Int) (fuel : Nat),
        countSectors fuel adj L ≠ .error .outOfBounds ∧
        (MAX_ID + 1 ≤ fuel → ∃ k, countSectors fuel adj L = .ok k) := by
  obtain ⟨adj, hadj⟩ := addEdges_total es wf_emptyAdj
  have hwf : WF adj := wf_addEdges es wf_emptyAdj hadj
  refine ⟨adj, hadj, hwf.size, ?_, ?_, ?_⟩
  · intro row hrow v hv
    obtain ⟨u, hu⟩ := readAt_of_mem hrow
    exact hwf.inRange u v ⟨row, hu, hv⟩
  · intro w hw hes
    rw [readAt_addEdges_other es w hes hadj]
    exact readAt_emptyAdj hw
  · intro L fuel
    refine ⟨?_, fun hfuel => ⟨_, countSectors_wf hwf hfuel L⟩⟩
    unfold countSectors
    rcases sectorLoop_in_bounds adj hwf.size hwf.inRange fuel L initVisited 0
        initVisited_length with h | ⟨vis2, s2, h, -⟩
    · rw [h]
      simp
    · rw [h]
      simp

theorem built_in_bounds_witness :
    ∃ adj, addEdges emptyAdj [(1, 2), (2, 1), (3, 4)] = .ok adj ∧ adj.length = MAX_ID + 1 ∧
      (∀ row ∈ adj, ∀ v ∈ row, InRange v) ∧
      (∀ w, InRange w → (∀ e ∈ [((1 : Int), (2 : Int)), (2, 1), (3, 4)], e.1 ≠ w ∧ e.2 ≠ w) →
        readAt adj w = .ok []) ∧
      ∀ (L : List Int) (fuel : Nat),
        countSectors fuel adj L ≠ .error .outOfBounds ∧
        (MAX_ID + 1 ≤ fuel → ∃ k, countSectors fuel adj L = .ok k) :=
  built_in_bounds [(1, 2), (2, 1), (3, 4)]

/-! ## The visited marks over the counting pass -/

theorem bfsLoop_marked_mono (adj : Adj) : ∀ (fuel : Nat) (vis vis2 : Visited) (dq : List Int),
    bfsLoop adj fuel vis dq = .ok vis2 → ∀ x, Marked vis x → Marked vis2 x := by
  intro fuel
  induction fuel with
  | zero =>
    intro vis vis2 dq h x hx
    cases dq with
    | nil =>
      simp only [bfsLoop] at h
      cases h
      exact hx
    | cons u dq => simp [bfsLoop] at h
  | succ fuel ih =>
    intro vis vis2 dq h x hx
    cases dq with
    | nil =>
      simp only [bfsLoop] at h
      cases h
      exact hx
    | cons u dq =>
      simp only [bfsLoop] at h
      cases hr : readAt adj u with
      | error e => simp [hr] at h
      | ok row =>
        simp only [hr] at h
        cases hs : scanRow vis dq row with
        | error e => simp [hs] at h
        | ok p =>
          obtain ⟨vis1, dq1⟩ := p
          simp only [hs] at h
          exact ih vis1 vis2 dq1 h x ((scanRow_marked row vis vis1 dq dq1 hs).1 x hx)

theorem sectorLoop_append (fuel : Nat) (adj : Adj) (P Q : List Int) :
    ∀ (vis : Visited) (s : Int),
      sectorLoop fuel adj vis s (P ++ Q) =
        match sectorLoop fuel adj vis s P with
        | .error e => .error e
        | .ok (vis1, s1) => sectorLoop fuel adj vis1 s1 Q := by
  induction P with
  | nil => intro vis s; rfl
  | cons start rest ih =>
    intro vis s
    simp only [List.cons_append, sectorLoop]
    split
    · exact ih vis s
    · cases hr : readAt vis start with
      | error e => rfl
      | ok seen =>
        cases seen with
        | true =>
          simp only [if_true]
          exact ih vis s
        | false =>
          simp only [Bool.false_eq_true, if_false]
          cases hw : writeAt vis start true with
          | error e => rfl
          | ok vis1 =>
            dsimp only
            cases hb : bfsLoop adj fuel vis1 [start] with
            | error e => rfl
            | ok vis2 => exact ih vis2 (s + 1)

/-- The marks at the end of the inspection loop started from the initial marks:
the vertices reachable from an in-range inspection ID. -/
theorem sectorLoop_final_marks (adj : Adj) (hsize : adj.length = MAX_ID + 1)
    (hR : ∀ u v, Edge adj u v → InRange v) (fuel : Nat) (hfuel : MAX_ID + 1 ≤ fuel)
    (L : List Int) :
    ∃ (vis : Visited) (s : Int), sectorLoop fuel adj initVisited 0 L = .ok (vis, s) ∧
      vis.length = MAX_ID + 1 ∧ Closed adj vis ∧
      ∀ x, Marked vis x ↔ ∃ v ∈ L, InRange v ∧ Reach adj v x := by
  obtain ⟨vis, reps, h1, h2, h3, h4, h5, -, h7⟩ :=
    sectorLoop_spec adj hsize hR fuel hfuel L initVisited 0 initVisited_length
      (closed_initVisited adj)
  refine ⟨vis, _, h1, h2, h3, fun x => ⟨?_, ?_⟩⟩
  · intro hx
    rcases (h4 x).1 hx with h | ⟨r, hr, hrx⟩
    · exact absurd h (not_marked_initVisited x)
    · exact ⟨r, (h5 r hr).1, (h5 r hr).2.1, hrx⟩
  · rintro ⟨v, hv, hvin, hvx⟩
    have hm : Marked vis v := h7 v hv hvin
    induction hvx with
    | refl => exact hm
    | tail _ hbc ih => exact h3 _ _ ih hbc

/-- C14: for every built adjacency map and inspection list (with enough fuel)
the counting pass ends with exactly the vertices marked that are reachable from
some in-range ID of the list; after each iteration of the inspection loop, that
is after every initial part of the list, the marks are closed under adjacency and
are kept until the end; and no neighbour scan or traversal ever clears a
mark. -/
theorem visited_grows_to_reachable (adj : Adj) (hb : Built adj) (fuel : Nat)
    (hfuel : MAX_ID + 1 ≤ fuel) (L : List Int) :
    ∃ (vis : Visited) (s : Int), sectorLoop fuel adj initVisited 0 L = .ok (vis, s) ∧
      (∀ x, Marked vis x ↔ ∃ v ∈ L, InRange v ∧ Reach adj v x) ∧
      (∀ P Q : List Int, L = P ++ Q →
        ∃ (visP : Visited) (sP : Int), sectorLoop fuel adj initVisited 0 P = .ok (visP, sP) ∧
          Closed adj visP ∧ sectorLoop fuel adj visP sP Q = .ok (vis, s) ∧
          ∀ x, Marked visP x → Marked vis x) ∧
      (∀ (vis0 vis1 : Visited) (dq dq1 row : List Int), scanRow vis0 dq row = .ok (vis1, dq1) →
        ∀ x, Marked vis0 x → Marked vis1 x) ∧
      (∀ (f : Nat) (vis0 vis1 : Visited) (dq : List Int), bfsLoop adj f vis0 dq = .ok vis1 →
        ∀ x, Marked vis0 x → Marked vis1 x) := by
  have hwf := wf_of_built hb
  obtain ⟨vis, s, h1, -, -, h4⟩ :=
    sectorLoop_final_marks adj hwf.size hwf.inRange fuel hfuel L
  refine ⟨vis, s, h1, h4, ?_, ?_, ?_⟩
  · intro P Q hPQ
    obtain ⟨visP, sP, p1, p2, p3, p4⟩ :=
      sectorLoop_final_marks adj hwf.size hwf.inRange fuel hfuel P
    have hQ : sectorLoop fuel adj visP sP Q = .ok (vis, s) := by
      have := sectorLoop_append fuel adj P Q initVisited 0
      rw [← hPQ, h1, p1] at this
      exact this.symm
    refine ⟨visP, sP, p1, p3, hQ, ?_⟩
    intro x hx
    obtain ⟨v, hv, hvin, hvx⟩ := (p4 x).1 hx
    exact (h4 x).2 ⟨v, by rw [hPQ]; exact List.mem_append_left _ hv, hvin, hvx⟩
  · intro vis0 vis1 dq dq1 row h x hx
    exact (scanRow_marked row vis0 vis1 dq dq1 h).1 x hx
  · intro f vis0 vis1 dq h x hx
    exact bfsLoop_marked_mono adj f vis0 vis1 dq h x hx

theorem visited_grows_to_reachable_witness :
    Built scenarioAdj ∧ MAX_ID + 1 ≤ 1001 ∧
      ∃ (vis : Visited) (s : Int),
        sectorLoop 1001 scenarioAdj initVisited 0 [1, 4] = .ok (vis, s) ∧
        (∀ x, Marked vis x ↔ ∃ v ∈ [1, 4], InRange v ∧ Reach scenarioAdj v x) ∧
        (∀ P Q : List Int, [1, 4] = P ++ Q →
          ∃ (visP : Visited) (sP : Int),
            sectorLoop 1001 scenarioAdj initVisited 0 P = .ok (visP, sP) ∧
            Closed scenarioAdj visP ∧ sectorLoop 1001 scenarioAdj visP sP Q = .ok (vis, s) ∧
            ∀ x, Marked visP x → Marked vis x) ∧
        (∀ (vis0 vis1 : Visited) (dq dq1 row : List Int),
          scanRow vis0 dq row = .ok (vis1, dq1) → ∀ x, Marked vis0 x → Marked vis1 x) ∧
        (∀ (f : Nat) (vis0 vis1 : Visited) (dq : List Int),
          bfsLoop scenarioAdj f vis0 dq = .ok vis1 → ∀ x, Marked vis0 x → Marked vis1 x) :=
  ⟨built_scenarioAdj, fuel_1001,
    visited_grows_to_reachable scenarioAdj built_scenarioAdj 1001 fuel_1001 [1, 4]⟩

/-! ## Enqueue discipline -/

set_option maxRecDepth 100000 in
theorem sectorLoopLog_scenario_eval :
    (sectorLoopLog 1001 scenarioAdj initVisited 0 [] [] [1, 2, 4]).map
      (fun r => (r.2.1, r.2.2)) = .ok (2, [1, 2, 4, 3], [1, 4]) := by
  decide

theorem mem_of_readAt {α : Type} {xs : List α} {u : Int} {x : α} (h : readAt xs u = .ok x) :
    x ∈ xs := by
  obtain ⟨-, h1⟩ := (readAt_ok_iff xs u x).1 h
  obtain ⟨h2, h3⟩ := List.getElem?_eq_some.1 h1
  rw [← h3]
  exact List.getElem_mem _

theorem edge_inRange_of_rows {adj : Adj} (hR : ∀ row ∈ adj, ∀ v ∈ row, InRange v) :
    ∀ u v, Edge adj u v → InRange v := by
  rintro u v ⟨row, hrow, hv⟩
  exact hR row (mem_of_readAt hrow) v hv

/-- A neighbour scan keeps the sum of the queue length and the number of
unmarked vertices. -/
theorem scanRow_measure (row : List Int) : ∀ (vis vis1 : Visited) (dq dq1 : List Int),
    scanRow vis dq row = .ok (vis1, dq1) →
    dq1.length + unvisited vis1 = dq.length + unvisited vis := by
  induction row with
  | nil =>
    intro vis vis1 dq dq1 h
    simp only [scanRow] at h
    injection h with h
    injection h with h1 h2
    subst h1
    subst h2
    rfl
  | cons v vs ih =>
    intro vis vis1 dq dq1 h
    simp only [scanRow] at h
    cases hr : readAt vis v with
    | error e => simp [hr] at h
    | ok seen =>
      cases seen with
      | true =>
        simp only [hr, Bool.not_true, Bool.false_eq_true, if_false] at h
        exact ih vis vis1 dq dq1 h
      | false =>
        simp only [hr, Bool.not_false, if_true] at h
        cases hw : writeAt vis v true with
        | error e => simp [hw] at h
        | ok visw =>
          simp only [hw] at h
          have h1 := ih visw vis1 (dq ++ [v]) dq1 h
          have h2 := unvisited_writeAt hr hw
          simp only [List.length_append, List.length_singleton] at h1
          omega

/-- C16: on every adjacency map with one row per vertex whose stored IDs lie in
`[0, MAX_ID]` (symmetric or not, with or without repeated entries, self-loops
and cycles) and for every inspection list, the counting pass with
`MAX_ID + 1` units of fuel or more returns a count; every traversal returns
once the fuel covers the queue length plus the number of unmarked vertices,
and each iteration of the `while` loop lowers that sum. -/
theorem counting_pass_terminates (adj : Adj) (hsize : adj.length = MAX_ID + 1)
    (hR : ∀ row ∈ adj, ∀ v ∈ row, InRange v) (fuel : Nat) (hfuel : MAX_ID + 1 ≤ fuel)
    (L : List Int) :
    (∃ k, countSectors fuel adj L = .ok k) ∧
      (∀ (vis : Visited) (dq : List Int) (f : Nat), vis.length = MAX_ID + 1 →
        (∀ x ∈ dq, Marked vis x) → dq.length + unvisited vis ≤ f →
        ∃ vis2, bfsLoop adj f vis dq = .ok vis2) ∧
      (∀ (vis vis1 : Visited) (u : Int) (dq dq1 row : List Int), readAt adj u = .ok row →
        scanRow vis dq row = .ok (vis1, dq1) →
        dq1.length + unvisited vis1 < (u :: dq).length + unvisited vis) := by
  have hE := edge_inRange_of_rows hR
  refine ⟨?_, ?_, ?_⟩
  · obtain ⟨reps, h, -⟩ := countSectors_reps adj hsize hE fuel hfuel L
    exact ⟨_, h⟩
  · intro vis dq f hlen hdq hf
    obtain ⟨vis2, h, -⟩ := bfsLoop_spec adj hsize hE f vis dq hlen hdq hf
    exact ⟨vis2, h⟩
  · intro vis vis1 u dq dq1 row _ hs
    have := scanRow_measure row vis vis1 dq dq1 hs
    simp only [List.length_cons]
    omega

theorem cyclicAdj_rows : cyclicAdj.length = MAX_ID + 1 ∧
    ∀ row ∈ cyclicAdj, ∀ v ∈ row, InRange v := by
  refine ⟨by simp [cyclicAdj, emptyAdj], ?_⟩
  intro row hrow v hv
  have h123 : InRange 1 ∧ InRange 2 ∧ InRange 3 := by decide
  unfold cyclicAdj at hrow
  rcases List.mem_or_eq_of_mem_set hrow with hrow | rfl
  · rcases List.mem_or_eq_of_mem_set hrow with hrow | rfl
    · rcases List.mem_or_eq_of_mem_set hrow with hrow | rfl
      · rw [emptyAdj, List.mem_replicate] at hrow
        rw [hrow.2] at hv
        simp at hv
      · simp only [List.mem_cons, List.mem_singleton, List.not_mem_nil, or_false] at hv
        rcases hv with rfl | rfl | rfl
        · exact h123.1
        · exact h123.2.1
        · exact h123.2.1
    · simp only [List.mem_singleton] at hv
      subst hv
      exact h123.2.2
  · simp only [List.mem_singleton] at hv
    subst hv
    exact h123.1

theorem counting_pass_terminates_witness :
    cyclicAdj.length = MAX_ID + 1 ∧ (∀ row ∈ cyclicAdj, ∀ v ∈ row, InRange v) ∧
      MAX_ID + 1 ≤ 1001 ∧
      ((∃ k, countSectors 1001 cyclicAdj [3, 1] = .ok k) ∧
        (∀ (vis : Visited) (dq : List Int) (f : Nat), vis.length = MAX_ID + 1 →
          (∀ x ∈ dq, Marked vis x) → dq.length + unvisited vis ≤ f →
          ∃ vis2, bfsLoop cyclicAdj f vis dq = .ok vis2) ∧
        (∀ (vis vis1 : Visited) (u : Int) (dq dq1 row : List Int),
          readAt cyclicAdj u = .ok row → scanRow vis dq row = .ok (vis1, dq1) →
          dq1.length + unvisited vis1 < (u :: dq).length + unvisited vis)) :=
  ⟨cyclicAdj_rows.1, cyclicAdj_rows.2, fuel_1001,
    counting_pass_terminates cyclicAdj cyclicAdj_rows.1 cyclicAdj_rows.2 1001 fuel_1001 [3, 1]⟩

/-! ## Breadth-first against depth-first -/

theorem lifoLoop_nil (adj : Adj) (fuel : Nat) (vis : Visited) :
    lifoLoop adj fuel vis [] = .ok vis := by
  cases fuel <;> simp [lifoLoop]

theorem lifoLoop_zero (adj : Adj) (vis : Visited) (dq : List Int) (u : Int) :
    lifoLoop adj 0 vis (dq ++ [u]) = .error .outOfFuel := by
  simp [lifoLoop]

theorem lifoLoop_succ (adj : Adj) (fuel : Nat) (vis : Visited) (dq : List Int) (u : Int) :
    lifoLoop adj (fuel + 1) vis (dq ++ [u]) =
      match readAt adj u with
      | .error e => .error e
      | .ok row =>
        match scanRow vis dq row with
        | .error e => .error e
        | .ok (vis1, dq1) => lifoLoop adj fuel vis1 dq1 := by
  have h1 : (dq ++ [u]).getLast? = some u := by simp
  have h2 : (dq ++ [u]).dropLast = dq := by simp
  rw [lifoLoop.eq_def]
  simp only [h1, h2]

theorem eq_nil_or_snoc (dq : List Int) : dq = [] ∨ ∃ init u, dq = init ++ [u] := by
  rcases List.eq_nil_or_concat dq with h | ⟨init, u, h⟩
  · exact Or.inl h
  · exact Or.inr ⟨init, u, by simpa using h⟩

theorem lifoLoop_spec (adj : Adj) (hsize : adj.length = MAX_ID + 1)
    (hR : ∀ u v, Edge adj u v → InRange v) :
    ∀ (fuel : Nat) (vis : Visited) (dq : List Int),
      vis.length = MAX_ID + 1 → (∀ x ∈ dq, Marked vis x) →
      dq.length + unvisited vis ≤ fuel →
      ∃ vis2, lifoLoop adj fuel vis dq = .ok vis2 ∧ vis2.length = MAX_ID + 1 ∧
        (∀ x, Marked vis x → Marked vis2 x) ∧
        (∀ x, Marked vis2 x → Marked vis x ∨ ∃ q ∈ dq, Reach adj q x) ∧
        ((∀ u, Marked vis u → u ∉ dq → ∀ v, Edge adj u v → Marked vis v) →
          Closed adj vis2) := by
  intro fuel
  induction fuel with
  | zero =>
    intro vis dq hlen hdq hfuel
    rcases eq_nil_or_snoc dq with rfl | ⟨init, u, rfl⟩
    · refine ⟨vis, lifoLoop_nil adj 0 vis, hlen, fun _ h => h, fun _ h => Or.inl h, ?_⟩
      intro hc u v hu he
      exact hc u hu (by simp) v he
    · simp at hfuel
  | succ fuel ih =>
    intro vis dq hlen hdq hfuel
    rcases eq_nil_or_snoc dq with rfl | ⟨init, u, rfl⟩
    · refine ⟨vis, lifoLoop_nil adj _ vis, hlen, fun _ h => h, fun _ h => Or.inl h, ?_⟩
      intro hc u v hu he
      exact hc u hu (by simp) v he
    · have hmemu : u ∈ init ++ [u] := by simp
      obtain ⟨hu0, hu1⟩ := marked_lt (hdq u hmemu)
      obtain ⟨row, hrow⟩ := readAt_of_lt adj hu0 (by rw [hsize, ← hlen]; exact hu1)
      have hb : ∀ v ∈ row, 0 ≤ v ∧ v.toNat < vis.length :=
        fun v hv => inRange_lt (hR u v ⟨row, hrow, hv⟩) hlen
      obtain ⟨vis1, new, h1, h2, h3, h4, h5⟩ := scanRow_spec row vis init hb
      have hdq1 : ∀ x ∈ init ++ new, Marked vis1 x := by
        intro x hx
        rw [List.mem_append] at hx
        rw [h3 x]
        rcases hx with hx | hx
        · exact Or.inl (hdq x (List.mem_append_left _ hx))
        · exact Or.inr ((h4 x).1 hx).1
      have hfuel1 : (init ++ new).length + unvisited vis1 ≤ fuel := by
        simp only [List.length_append, List.length_singleton] at hfuel ⊢
        omega
      obtain ⟨vis2, k1, k2, k3, k4, k5⟩ := ih vis1 (init ++ new) (h2.trans hlen) hdq1 hfuel1
      refine ⟨vis2, ?_, k2, ?_, ?_, ?_⟩
      · rw [lifoLoop_succ]
        simp only [hrow, h1, k1]
      · intro x hx
        exact k3 x ((h3 x).2 (Or.inl hx))
      · intro x hx
        rcases k4 x hx with hx1 | ⟨q, hq, hqx⟩
        · rcases (h3 x).1 hx1 with hx2 | hx2
          · exact Or.inl hx2
          · exact Or.inr ⟨u, hmemu, reach_of_edge ⟨row, hrow, hx2⟩⟩
        · rw [List.mem_append] at hq
          rcases hq with hq | hq
          · exact Or.inr ⟨q, List.mem_append_left _ hq, hqx⟩
          · refine Or.inr ⟨u, hmemu, ?_⟩
            exact Relation.ReflTransGen.head ⟨row, hrow, ((h4 q).1 hq).1⟩ hqx
      · intro hc
        apply k5
        intro w hw hwq v hwv
        rw [h3 v]
        rw [List.mem_append, not_or] at hwq
        by_cases hwold : Marked vis w
        · by_cases hwu : w = u
          · subst hwu
            obtain ⟨row1, hrow1, hv⟩ := hwv
            rw [hrow] at hrow1
            cases hrow1
            exact Or.inr hv
          · refine Or.inl (hc w hwold ?_ v hwv)
            simp [hwu, hwq.1]
        · exfalso
          rcases (h3 w).1 hw with h | h
          · exact hwold h
          · exact hwq.2 ((h4 w).2 ⟨h, hwold⟩)

theorem lifo_from_start (adj : Adj) (hsize : adj.length = MAX_ID + 1)
    (hR : ∀ u v, Edge adj u v → InRange v) (fuel : Nat) (hfuel : MAX_ID + 1 ≤ fuel)
    (vis vis1 : Visited) (start : Int) (hlen : vis.length = MAX_ID + 1)
    (hclosed : Closed adj vis) (hr : readAt vis start = .ok false)
    (hw : writeAt vis start true = .ok vis1) :
    ∃ vis2, lifoLoop adj fuel vis1 [start] = .ok vis2 ∧ vis2.length = MAX_ID + 1 ∧
      Closed adj vis2 ∧ ∀ x, Marked vis2 x ↔ Marked vis x ∨ Reach adj start x := by
  have hlen1 : vis1.length = MAX_ID + 1 := (writeAt_length hw).trans hlen
  have hstart : Marked vis1 start := readAt_writeAt_self hw
  have hun : unvisited vis1 + 1 = unvisited vis := unvisited_writeAt hr hw
  have hle : unvisited vis ≤ MAX_ID + 1 := by
    unfold unvisited
    rw [← hlen]
    exact List.count_le_length _ _
  obtain ⟨vis2, k1, k2, k3, k4, k5⟩ := lifoLoop_spec adj hsize hR fuel vis1 [start] hlen1
    (by simpa using hstart) (by simp only [List.length_singleton]; omega)
  have hcl : Closed adj vis2 := by
    apply k5
    intro u hu hus v huv
    rw [marked_writeAt hw] at hu ⊢
    rcases hu with hu | hu
    · exact Or.inl (hclosed u v hu huv)
    · exact absurd hu (by simpa using hus)
  refine ⟨vis2, k1, k2, hcl, fun x => ⟨?_, ?_⟩⟩
  · intro hx
    rcases k4 x hx with h | ⟨q, hq, hqx⟩
    · rcases (marked_writeAt hw x).1 h with h | rfl
      · exact Or.inl h
      · exact Or.inr Relation.ReflTransGen.refl
    · rw [List.mem_singleton] at hq
      subst hq
      exact Or.inr hqx
  · rintro (h | h)
    · exact k3 x ((marked_writeAt hw x).2 (Or.inl h))
    · have hs2 : Marked vis2 start := k3 start hstart
      induction h with
      | refl => exact hs2
      | tail _ hbc ih => exact hcl _ _ ih hbc

/-- Marks of the same length that mark the same vertices are equal. -/
theorem visited_ext {vis1 vis2 : Visited} (hlen : vis1.length = vis2.length)
    (h : ∀ x, Marked vis1 x ↔ Marked vis2 x) : vis1 = vis2 := by
  apply List.ext_getElem hlen
  intro n h1 h2
  have hm := h (n : Int)
  rw [marked_iff, marked_iff] at hm
  simp only [Int.toNat_ofNat, Int.natCast_nonneg, true_and,
    List.getElem?_eq_getElem h1, List.getElem?_eq_getElem h2, Option.some.injEq] at hm
  cases h3 : vis1[n] <;> cases h4 : vis2[n] <;> simp_all

theorem sectorLoopLifo_eq (adj : Adj) (hsize : adj.length = MAX_ID + 1)
    (hR : ∀ u v, Edge adj u v → InRange v) (fuel : Nat) (hfuel : MAX_ID + 1 ≤ fuel) :
    ∀ (L : List Int) (vis : Visited) (s : Int), vis.length = MAX_ID + 1 → Closed adj vis →
      sectorLoopLifo fuel adj vis s L = sectorLoop fuel adj vis s L := by
  intro L
  induction L with
  | nil => intro vis s _ _; rfl
  | cons start rest ih =>
    intro vis s hlen hcl
    by_cases hg : start < 0 ∨ start > (MAX_ID : Int)
    · simp only [sectorLoopLifo, sectorLoop, hg, if_true]
      exact ih vis s hlen hcl
    · have hin : InRange start := (not_guard_iff start).1 hg
      obtain ⟨hs0, hs1⟩ := inRange_lt hin hlen
      obtain ⟨seen, hseen⟩ := readAt_of_lt vis hs0 hs1
      cases seen with
      | true =>
        simp only [sectorLoopLifo, sectorLoop, hg, if_false, hseen, if_true]
        exact ih vis s hlen hcl
      | false =>
        have hw : writeAt vis start true = .ok (vis.set start.toNat true) :=
          writeAt_of_lt true hs0 hs1
        obtain ⟨visB, b1, b2, b3, b4⟩ :=
          bfs_from_start adj hsize hR fuel hfuel vis _ start hlen hcl hseen hw
        obtain ⟨visL, l1, l2, -, l4⟩ :=
          lifo_from_start adj hsize hR fuel hfuel vis _ start hlen hcl hseen hw
        have heq : visL = visB :=
          visited_ext (l2.trans b2.symm) (fun x => (l4 x).trans (b4 x).symm)
        subst heq
        simp only [sectorLoopLifo, sectorLoop, hg, if_false, hseen, hw, b1, l1,
          Bool.false_eq_true]
        exact ih visL (s + 1) b2 b3

/-- C18: for every built adjacency map and inspection list (with enough fuel),
the sector count computed with the breadth-first traversal (pop from the front)
equals the one computed by the same procedure with the depth-first traversal
(pop from the back), and both are proper results. -/
theorem countSectorsLifo_eq_countSectors (adj : Adj) (hb : Built adj) (fuel : Nat)
    (hfuel : MAX_ID + 1 ≤ fuel) (L : List Int) :
    countSectorsLifo fuel adj L = countSectors fuel adj L ∧
      ∃ k : Int, countSectors fuel adj L = .ok k := by
  have hwf := wf_of_built hb
  refine ⟨?_, _, countSectors_wf hwf hfuel L⟩
  unfold countSectorsLifo countSectors
  rw [sectorLoopLifo_eq adj hwf.size hwf.inRange fuel hfuel L initVisited 0 initVisited_length
    (closed_initVisited adj)]

theorem countSectorsLifo_eq_countSectors_witness :
    Built scenarioAdj ∧ MAX_ID + 1 ≤ 1001 ∧
      (countSectorsLifo 1001 scenarioAdj [1, 4] = countSectors 1001 scenarioAdj [1, 4] ∧
        ∃ k : Int, countSectors 1001 scenarioAdj [1, 4] = .ok k) :=
  ⟨built_scenarioAdj, fuel_1001,
    countSectorsLifo_eq_countSectors scenarioAdj built_scenarioAdj 1001 fuel_1001 [1, 4]⟩

set_option maxRecDepth 100000 in
theorem countSectorsLifo_scenario_eval :
    countSectorsLifo 1001 scenarioAdj [1, 4] = .ok 2 := by
  decide

/-! ## Adding edges to a built map -/

theorem reach_mono {adj adj2 : Adj} (h : ∀ u v, Edge adj u v → Edge adj2 u v) {a b : Int}
    (hab : Reach adj a b) : Reach adj2 a b :=
  Relation.ReflTransGen.mono (fun u v => h u v) hab

theorem component_congr {adj adj2 : Adj} (h : ∀ u v, Edge adj2 u v ↔ Edge adj u v) :
    component adj2 = component adj := by
  funext v
  ext x
  simp only [component, Set.mem_setOf_eq]
  exact ⟨reach_mono (fun u v => (h u v).1), reach_mono (fun u v => (h u v).2)⟩

theorem touched_of_edge_iff {adj adj2 : Adj} (h : ∀ u v, Edge adj2 u v ↔ Edge adj u v)
    (L : List Int) : touched adj2 L = touched adj L := by
  unfold touched IsComponent
  rw [component_congr h]

theorem inRange_of_edge {adj : Adj} (hwf : WF adj) {u v : Int} (h : Edge adj u v) :
    InRange u ∧ InRange v := by
  refine ⟨?_, hwf.inRange u v h⟩
  obtain ⟨h0, h1⟩ := edge_lt h
  rw [hwf.size] at h1
  unfold InRange
  omega

/-- C19: duplicate edges are harmless: for every built adjacency map, every
edge `(a, b)` already stored in it and every inspection list, `addEdge` on
`(a, b)` succeeds and (with enough fuel) leaves the sector count, a proper
result, as it was. -/
theorem addEdge_duplicate_countSectors (adj : Adj) (hb : Built adj) (a b : Int)
    (he : Edge adj a b) (fuel : Nat) (hfuel : MAX_ID + 1 ≤ fuel) (L : List Int) :
    ∃ adj2, addEdge adj a b = .ok adj2 ∧
      countSectors fuel adj2 L = countSectors fuel adj L ∧
      ∃ k : Int, countSectors fuel adj L = .ok k := by
  have hwf := wf_of_built hb
  obtain ⟨ha, hbr⟩ := inRange_of_edge hwf he
  obtain ⟨adj2, h⟩ := addEdge_of_inRange adj hwf.size a b ha hbr
  have hwf2 := wf_addEdge hwf h
  have hiff : ∀ u v, Edge adj2 u v ↔ Edge adj u v := by
    intro u v
    rw [edge_addEdge ha hbr h u v]
    constructor
    · rintro (h1 | ⟨rfl, rfl⟩ | ⟨rfl, rfl⟩)
      · exact h1
      · exact he
      · exact hwf.symm _ _ he
    · exact Or.inl
  refine ⟨adj2, h, ?_, _, countSectors_wf hwf hfuel L⟩
  rw [countSectors_wf hwf2 hfuel L, countSectors_wf hwf hfuel L, touched_of_edge_iff hiff L]

set_option maxRecDepth 100000 in
theorem readAt_scenario_1 : readAt scenarioAdj 1 = .ok [2, 2] := by
  decide

theorem edge_scenario_1_2 : Edge scenarioAdj 1 2 :=
  ⟨[2, 2], readAt_scenario_1, by decide⟩

theorem addEdge_duplicate_countSectors_witness :
    Built scenarioAdj ∧ Edge scenarioAdj 1 2 ∧ MAX_ID + 1 ≤ 1001 ∧
      ∃ adj2, addEdge scenarioAdj 1 2 = .ok adj2 ∧
        countSectors 1001 adj2 [1, 4] = countSectors 1001 scenarioAdj [1, 4] ∧
        ∃ k : Int, countSectors 1001 scenarioAdj [1, 4] = .ok k :=
  ⟨built_scenarioAdj, edge_scenario_1_2, fuel_1001,
    addEdge_duplicate_countSectors scenarioAdj built_scenarioAdj 1 2 edge_scenario_1_2 1001
      fuel_1001 [1, 4]⟩

/-- A path in the map after an accepted `addEdge` either is a path of the map
before or crosses the new edge in one of its two directions. -/
theorem reach_addEdge_cases {adj adj2 : Adj} {a b : Int} (ha : InRange a) (hb : InRange b)
    (h : addEdge adj a b = .ok adj2) {x y : Int} (hxy : Reach adj2 x y) :
    Reach adj x y ∨ (Reach adj x a ∧ Reach adj b y) ∨ (Reach adj x b ∧ Reach adj a y) := by
  induction hxy with
  | refl => exact Or.inl Relation.ReflTransGen.refl
  | tail _ hzy ih =>
    rcases (edge_addEdge ha hb h _ _).1 hzy with e | ⟨hz, hy⟩ | ⟨hz, hy⟩
    · rcases ih with i | ⟨i1, i2⟩ | ⟨i1, i2⟩
      · exact Or.inl (Relation.ReflTransGen.tail i e)
      · exact Or.inr (Or.inl ⟨i1, Relation.ReflTransGen.tail i2 e⟩)
      · exact Or.inr (Or.inr ⟨i1, Relation.ReflTransGen.tail i2 e⟩)
    · rw [hy]
      rw [hz] at ih
      rcases ih with i | ⟨i1, -⟩ | ⟨i1, -⟩
      · exact Or.inr (Or.inl ⟨i, Relation.ReflTransGen.refl⟩)
      · exact Or.inr (Or.inl ⟨i1, Relation.ReflTransGen.refl⟩)
      · exact Or.inl i1
    · rw [hy]
      rw [hz] at ih
      rcases ih with i | ⟨i1, -⟩ | ⟨i1, -⟩
      · exact Or.inr (Or.inr ⟨i, Relation.ReflTransGen.refl⟩)
      · exact Or.inl i1
      · exact Or.inr (Or.inr ⟨i1, Relation.ReflTransGen.refl⟩)

/-- With symmetric rows, the touched components are the components of any list
of in-range inspection IDs from which every in-range inspection ID is
reachable. -/
theorem touched_eq_image (adj : Adj) (hs : ∀ u v, Edge adj u v → Edge adj v u)
    (L reps : List Int) (h1 : ∀ r ∈ reps, r ∈ L ∧ InRange r)
    (h3 : ∀ v ∈ L, InRange v → ∃ r ∈ reps, Reach adj r v) :
    touched adj L = component adj '' (↑reps.toFinset : Set Int) := by
  ext c
  simp only [touched, IsComponent, Set.mem_setOf_eq, Set.mem_image, Finset.mem_coe,
    List.mem_toFinset]
  constructor
  · rintro ⟨⟨w, -, rfl⟩, v, hv, hvin, hwv⟩
    obtain ⟨r, hr, hrv⟩ := h3 v hv hvin
    exact ⟨r, hr, component_eq_of_reach hs (hrv.trans (reach_symm hs hwv))⟩
  · rintro ⟨r, hr, rfl⟩
    exact ⟨⟨r, (h1 r hr).2, rfl⟩, r, (h1 r hr).1, (h1 r hr).2, mem_component_self adj r⟩

theorem reps_eq_of_reach {adj : Adj} (hs : ∀ u v, Edge adj u v → Edge adj v u)
    {reps : List Int} (hpw : reps.Pairwise (fun p q => ¬ Reach adj p q)) {r1 r2 : Int}
    (h1 : r1 ∈ reps) (h2 : r2 ∈ reps) (h : Reach adj r1 r2) : r1 = r2 := by
  by_contra hne
  have hpw2 : reps.Pairwise (fun p q => ¬ Reach adj p q ∨ ¬ Reach adj q p) := hpw.imp Or.inl
  rcases hpw2.forall (fun _ _ hx => hx.symm) h1 h2 hne with hx | hx
  · exact hx h
  · exact hx (reach_symm hs h)

/-- An accepted or dropped `addEdge` on a well-formed map lowers the number of
touched components by at most one and never raises it. -/
theorem touched_ncard_addEdge {adj adj2 : Adj} {a b : Int} (hwf : WF adj)
    (h : addEdge adj a b = .ok adj2) (L : List Int) :
    (touched adj2 L).ncard ≤ (touched adj L).ncard ∧
      (touched adj L).ncard ≤ (touched adj2 L).ncard + 1 := by
  classical
  by_cases hr : InRange a ∧ InRange b
  · obtain ⟨ha, hb⟩ := hr
    have hwf2 := wf_addEdge hwf h
    obtain ⟨reps, -, h2, h3, h4⟩ :=
      countSectors_reps adj hwf.size hwf.inRange (MAX_ID + 1) (le_refl _) L
    have hmono : ∀ x y, Reach adj x y → Reach adj2 x y := fun x y hxy =>
      reach_mono (fun u v huv => (edge_addEdge ha hb h u v).2 (Or.inl huv)) hxy
    have hold : (touched adj L).ncard = reps.length :=
      touched_ncard_of_reps adj hwf.symm L reps h2 h3 h4
    have hnodup : reps.Nodup := by
      refine h3.imp ?_
      intro p q hpq heq
      subst heq
      exact hpq Relation.ReflTransGen.refl
    have hnew : touched adj2 L = component adj2 '' (↑reps.toFinset : Set Int) :=
      touched_eq_image adj2 hwf2.symm L reps h2
        (fun v hv hvin => by
          obtain ⟨r, hr, hrv⟩ := h4 v hv hvin
          exact ⟨r, hr, hmono r v hrv⟩)
    have hcard : (↑reps.toFinset : Set Int).ncard = reps.length := by
      rw [Set.ncard_coe_Finset, List.toFinset_card_of_nodup hnodup]
    refine ⟨?_, ?_⟩
    · rw [hnew, hold, ← hcard]
      exact Set.ncard_image_le (Finset.finite_toSet _)
    · let S1 : Finset Int := reps.toFinset.filter (fun x => ¬ Reach adj x a)
      let S0 : Finset Int := reps.toFinset.filter (fun x => Reach adj x a)
      have hS0 : S0.card ≤ 1 := by
        rw [Finset.card_le_one]
        intro x hx y hy
        simp only [S0, Finset.mem_filter, List.mem_toFinset] at hx hy
        exact reps_eq_of_reach hwf.symm h3 hx.1 hy.1
          (hx.2.trans (reach_symm hwf.symm hy.2))
      have hsplit : S0.card + S1.card = reps.length := by
        rw [← List.toFinset_card_of_nodup hnodup]
        exact Finset.filter_card_add_filter_neg_card_eq_card _
      have hinj : Set.InjOn (component adj2) (↑S1 : Set Int) := by
        intro x hx y hy hxy
        simp only [S1, Finset.coe_filter, List.mem_toFinset, Set.mem_setOf_eq] at hx hy
        have hxy2 : Reach adj2 x y := by
          have : y ∈ component adj2 x := by
            rw [hxy]
            exact mem_component_self adj2 y
          exact this
        rcases reach_addEdge_cases ha hb h hxy2 with i | ⟨i1, -⟩ | ⟨-, i2⟩
        · exact reps_eq_of_reach hwf.symm h3 hx.1 hy.1 i
        · exact absurd i1 hx.2
        · exact absurd (reach_symm hwf.symm i2) hy.2
      have hsub : component adj2 '' (↑S1 : Set Int) ⊆ component adj2 '' (↑reps.toFinset : Set Int) := by
        apply Set.image_subset
        intro x hx
        simp only [S1, Finset.coe_filter, Set.mem_setOf_eq] at hx
        simpa using hx.1
      have hfin : (component adj2 '' (↑reps.toFinset : Set Int)).Finite :=
        (Finset.finite_toSet _).image _
      have hle := Set.ncard_le_ncard hsub hfin
      rw [Set.ncard_image_of_injOn hinj, Set.ncard_coe_Finset] at hle
      rw [hnew, hold]
      omega
  · rw [addEdge_of_not_inRange adj a b hr] at h
    cases h
    exact ⟨le_refl _, Nat.le_succ _⟩

/-- C20: for every built adjacency map, every pair `(a, b)` and every
inspection list, `addEdge` succeeds and (with enough fuel) the sector count of
the new map is at most the old count and at least the old count minus one. -/
theorem addEdge_countSectors_bounds (adj : Adj) (hb : Built adj) (a b : Int) (fuel : Nat)
    (hfuel : MAX_ID + 1 ≤ fuel) (L : List Int) :
    ∃ (adj2 : Adj) (k k2 : Int), addEdge adj a b = .ok adj2 ∧
      countSectors fuel adj L = .ok k ∧ countSectors fuel adj2 L = .ok k2 ∧
      k - 1 ≤ k2 ∧ k2 ≤ k := by
  have hwf := wf_of_built hb
  obtain ⟨adj2, h⟩ : ∃ adj2, addEdge adj a b = .ok adj2 := by
    by_cases hr : InRange a ∧ InRange b
    · exact addEdge_of_inRange adj hwf.size a b hr.1 hr.2
    · exact ⟨adj, addEdge_of_not_inRange adj a b hr⟩
  obtain ⟨h1, h2⟩ := touched_ncard_addEdge hwf h L
  refine ⟨adj2, _, _, h, countSectors_wf hwf hfuel L,
    countSectors_wf (wf_addEdge hwf h) hfuel L, ?_, ?_⟩
  · omega
  · exact_mod_cast h1

theorem addEdge_countSectors_bounds_witness :
    Built scenarioAdj ∧ MAX_ID + 1 ≤ 1001 ∧
      ∃ (adj2 : Adj) (k k2 : Int), addEdge scenarioAdj 2 3 = .ok adj2 ∧
        countSectors 1001 scenarioAdj [1, 4] = .ok k ∧ countSectors 1001 adj2 [1, 4] = .ok k2 ∧
        k - 1 ≤ k2 ∧ k2 ≤ k :=
  ⟨built_scenarioAdj, fuel_1001,
    addEdge_countSectors_bounds scenarioAdj built_scenarioAdj 2 3 1001 fuel_1001 [1, 4]⟩

/-! ## Lines that are not empty -/

/-- A line that holds only a blank is not empty for `line.empty()`: it takes a
record slot and is read as a record, whatever the stream makes of it. -/
theorem recordLoop_blank_character_line {σ : Type} (ops : StreamOps σ) (fuel : Nat)
    (l : String) (adj : Adj) :
    recordLoop ops 1 (fuel + 2) 0 [" ", l] adj = readRecord ops " " adj := by
  have he : " ".isEmpty = false := by decide
  simp only [recordLoop, getline, he, Bool.false_eq_true, if_false]
  cases hr : readRecord ops " " adj with
  | error e => simp
  | ok adj1 => simp

end TeslaPlant
